import Mathlib

/-!
Verification development for the structured-value (tuple) encoding layer of
the ESBMC SMT backend, `src/solvers/smt/smt_tuple.cpp`.

The C++ code is shallowly embedded: the mutable `smt_ast` object graph is
modelled by immutable `STerm` values with in-place mutation expressed as
returning the updated term; the solver context (`smt_convt`) state that the
file touches — the fresh-name counter and the list of asserted formulas — is
threaded explicitly as a `St` value.  Native backend terms (what a concrete
solver sees) are the `PTerm` syntax tree, given a model semantics by `evalP`.
Fatal conditions (failed asserts, `abort()`, null-pointer dereference,
`dynamic_cast` failures / undefined behaviour) are modelled as `Except.error`.
Recursive operations over the term graph carry an explicit fuel argument so
that every definition is a computable structural recursion; fuel exhaustion
is its own error and is never confused with a fatal condition of the code.
-/

/-- Size expression of an array type (`array_type2t::array_size`): either a
`constant_int2t` or some non-constant expression (all that the code under
study inspects is `is_constant_int2t`). -/
inductive SizeExpr where
  | constInt : Nat → SizeExpr
  | nonConst : SizeExpr
deriving DecidableEq, Repr

/-- The fragment of the `type2t` hierarchy that `smt_tuple.cpp` handles:
booleans, (unsigned) bit-vectors, struct/union types carrying their
`struct_union_data` descriptor (ordered member list) inline, pointer types
(whose descriptor is the canonical `pointer_struct`), and array types with
their size expression and `size_is_infinite` flag. -/
inductive Ty where
  | bool : Ty
  | bv : Nat → Ty
  | structT : String → List (String × Ty) → Ty
  | unionT : String → List (String × Ty) → Ty
  | pointer : Ty
  | arrayT : Ty → SizeExpr → Bool → Ty

/-- Width of the machine pointer / the two members of `pointer_struct`. -/
def ptrWidth : Nat := 32

/-- Member list of the canonical `pointer_struct` descriptor: a 2-field
(object-id, offset) record. -/
def pointerFields : List (String × Ty) :=
  [("pointer_object", Ty.bv ptrWidth), ("pointer_offset", Ty.bv ptrWidth)]

/-- The `pointer_struct` type itself, as a struct type. -/
def pointerStructTy : Ty := Ty.structT "pointer_struct" pointerFields

/-- `is_tuple_ast_type`: types whose terms are represented by a
`tuple_smt_ast` (struct, union, pointer). -/
def isTupleAstType : Ty → Bool
  | .structT _ _ => true
  | .unionT _ _ => true
  | .pointer => true
  | _ => false

/-- `is_tuple_array_ast_type`: array types with structured element type,
represented by an `array_smt_ast`. -/
def isTupleArrayAstType : Ty → Bool
  | .arrayT sub _ _ => isTupleAstType sub
  | _ => false

/-- `is_number_type` restricted to the fragment modelled here. -/
def isNumberType : Ty → Bool
  | .bv _ => true
  | _ => false

/-- `is_bool_type`. -/
def isBoolType : Ty → Bool
  | .bool => true
  | _ => false

/-- `is_array_type`. -/
def isArrayType : Ty → Bool
  | .arrayT _ _ _ => true
  | _ => false

/-- `smt_convt::get_type_def`: pointer types resolve to the canonical
`pointer_struct` descriptor, struct/union types to their own member list;
anything else is a failing `dynamic_cast` (fatal), modelled as `none`. -/
def getTypeDef : Ty → Option (List (String × Ty))
  | .pointer => some pointerFields
  | .structT _ fs => some fs
  | .unionT _ fs => some fs
  | _ => none

/-- The test `is_pointer_type(t) || t == pointer_struct` used by
`tuple_get_rec` (structural `type2tc` equality against the canonical
pointer-shape descriptor). -/
def isPointerShape : Ty → Bool
  | .pointer => true
  | .structT n [(a, .bv w1), (b, .bv w2)] =>
    n == "pointer_struct" && a == "pointer_object" && b == "pointer_offset"
      && w1 == ptrWidth && w2 == ptrWidth
  | _ => false

/-- Depth-bounded structural type equality, modelling `base_type_eq` (which
resolves symbolic types and compares structurally; the fragment embedded
here has no symbolic types, so it is plain structural equality, bounded by
fuel to keep the recursion structural). -/
def tyBeq : Nat → Ty → Ty → Bool
  | 0, _, _ => false
  | _ + 1, .bool, .bool => true
  | _ + 1, .bv w, .bv v => w == v
  | _ + 1, .pointer, .pointer => true
  | fuel + 1, .structT n fs, .structT m gs => n == m && fieldsBeq fuel fs gs
  | fuel + 1, .unionT n fs, .unionT m gs => n == m && fieldsBeq fuel fs gs
  | fuel + 1, .arrayT s sz i, .arrayT t tz j =>
    tyBeq fuel s t && sz == tz && i == j
  | _ + 1, _, _ => false
where
  fieldsBeq : Nat → List (String × Ty) → List (String × Ty) → Bool
    | _, [], [] => true
    | 0, _, _ => false
    | fuel + 1, (n, t) :: fs, (m, u) :: gs =>
      n == m && tyBeq fuel t u && fieldsBeq fuel fs gs
    | _, _, _ => false

/-- `base_type_eq` as used by `union_create` to match a union member's type
against the initializer's type. -/
def baseTypeEq (a b : Ty) : Bool := tyBeq 1000 a b

/-- SMT sorts (`smt_sort`): bool, bit-vector, array (domain width + range
sort), and the tuple sort carrying the `type2tc` it flattens
(`tuple_smt_sort::thetype`; for arrays-of-structs this is the array type). -/
inductive SSort where
  | boolS : SSort
  | bvS : Nat → SSort
  | arrS : Nat → SSort → SSort
  | tupS : Ty → SSort

/-- Modelled from the spec: the domain width that
`calculate_array_domain_width` / `make_array_domain_sort_exp` produce for the
arrays appearing in the claims (the code choosing it lives outside
`smt_tuple.cpp`). -/
def domWidth : Nat := 32

/-- `smt_convt::convert_sort` for the fragment used here: scalars map to the
native sorts, structured types to a tuple sort carrying the type, arrays of
structured elements to a tuple sort carrying the array type, and scalar
arrays to a native array sort.  (The function itself lives in `smt_conv.cpp`;
this is the mapping the tuple code relies on.) -/
def convertSort : Ty → SSort
  | .bool => .boolS
  | .bv w => .bvS w
  | .structT n fs => .tupS (.structT n fs)
  | .unionT n fs => .tupS (.unionT n fs)
  | .pointer => .tupS .pointer
  | .arrayT sub sz inf =>
    if isTupleAstType sub then .tupS (.arrayT sub sz inf)
    else .arrS domWidth (convertSort sub)

/-- Native backend terms: the function applications `smt_tuple.cpp` builds
through `mk_func_app`, plus symbols and constants.  These are the terms a
tuple-free solver actually sees. -/
inductive PTerm where
  | symP : String → SSort → PTerm
  | boolConst : Bool → PTerm
  | bvConst : Nat → Nat → PTerm
  | iteP : PTerm → PTerm → PTerm → PTerm
  | eqP : PTerm → PTerm → PTerm
  | andP : PTerm → PTerm → PTerm
  | storeP : PTerm → PTerm → PTerm → PTerm
  | selectP : PTerm → PTerm → PTerm

/-- Values a solver model assigns to native terms. -/
inductive Val where
  | bV : Bool → Val
  | nV : Nat → Val
  | arrV : (Nat → Val) → Val

/-- Truth of a model value. -/
def isTrueV : Val → Bool
  | .bV b => b
  | _ => false

/-- Numeric content of a model value. -/
def toNatV : Val → Nat
  | .nV n => n
  | _ => 0

/-- Scalar value equality as the solver's `=` interprets it on the scalar
sorts used here. -/
def valEqB : Val → Val → Bool
  | .bV a, .bV b => a == b
  | .nV a, .nV b => a == b
  | _, _ => false

/-- Model semantics of native terms: a model is an assignment of values to
symbol names.  Bit-vector constants are reduced modulo their width. -/
def evalP (env : String → Val) : PTerm → Val
  | .symP n _ => env n
  | .boolConst b => .bV b
  | .bvConst w v => .nV (v % 2 ^ w)
  | .iteP c t e => if isTrueV (evalP env c) then evalP env t else evalP env e
  | .eqP a b => .bV (valEqB (evalP env a) (evalP env b))
  | .andP a b => .bV (isTrueV (evalP env a) && isTrueV (evalP env b))
  | .storeP a i v =>
    match evalP env a with
    | .arrV f => .arrV (fun j => if j = toNatV (evalP env i) then evalP env v else f j)
    | x => x
  | .selectP a i =>
    match evalP env a with
    | .arrV f => f (toNatV (evalP env i))
    | x => x

/-- Modelled from the spec: `smt_convt::make_conjunct` (in `smt_conv.cpp`),
the conjunction of a list of boolean terms. -/
def makeConjunct : List PTerm → PTerm
  | [] => .boolConst true
  | [x] => x
  | x :: xs => .andP x (makeConjunct xs)

/-- The `smt_ast` hierarchy: `plainT` is a plain `smt_ast` backed by one
native term, `tupT` a `tuple_smt_ast` (sort, name prefix, child list), and
`tarrT` an `array_smt_ast` (sort, name prefix, per-field array children, and
the `is_still_free` flag).  A child slot is an `Option` because the C++
vectors hold nullable pointers (`resize` fills with null). -/
inductive STerm where
  | plainT : PTerm → SSort → STerm
  | tupT : SSort → String → List (Option STerm) → STerm
  | tarrT : SSort → String → List (Option STerm) → Bool → STerm

/-- Fatal conditions: failed assertions, `abort()` calls, null-pointer
dereferences and failing casts (undefined behaviour in the C++), plus fuel
exhaustion of the embedding (never produced by the code itself). -/
inductive Err where
  | projectOnPlain : Err
  | selectOnTuple : Err
  | outOfBounds : Err
  | nullDeref : Err
  | nonConstArraySize : Err
  | typeConfusion : Err
  | unsupported : Err
  | outOfFuel : Err
deriving DecidableEq, Repr

/-- The solver-context state that `smt_tuple.cpp` reads or writes: the
fresh-name counter behind `mk_fresh_name` and the formulas asserted through
`assert_ast`. -/
structure St where
  counter : Nat
  assertions : List PTerm

/-- Modelled from the spec: `smt_convt::mk_fresh_name` — a monotonically
increasing counter appended to the operation tag. -/
def mkFreshName (s : St) (tag : String) : St × String :=
  ({ s with counter := s.counter + 1 }, tag ++ toString s.counter)

/-- Name of a term (the symbol name of a plain symbol, or the name prefix of
a tuple / tuple-array term). -/
def termName : STerm → String
  | .plainT (.symP n _) _ => n
  | .plainT _ _ => ""
  | .tupT _ n _ => n
  | .tarrT _ n _ _ => n

/-- Sort of a term (`smt_ast::sort`). -/
def termSort : STerm → SSort
  | .plainT _ s => s
  | .tupT s _ _ => s
  | .tarrT s _ _ _ => s

/-- Modelled from the spec: the `array_smt_ast` constructor (declared outside
`smt_tuple.cpp`).  An array-of-structs term is fully populated at
construction with one array-typed child per field of the element type, each
named `<prefix>.<field-name>`; struct-typed fields recursively receive a
nested tuple-array child.  The `is_still_free` flag starts `true`. -/
def mkArrChildren : Nat → SizeExpr → Bool → String → List (String × Ty) →
    Except Err (List (Option STerm))
  | _, _, _, _, [] => .ok []
  | 0, _, _, _, _ :: _ => .error .outOfFuel
  | fuel + 1, sz, inf, pre, (fn, fty) :: rest => do
    let childname := pre ++ "." ++ fn
    let csort := convertSort (.arrayT fty sz inf)
    let c ←
      if isTupleAstType fty then
        match fty, getTypeDef fty with
        | _, some fields => do
          let cs ← mkArrChildren fuel sz inf childname fields
          pure (STerm.tarrT csort childname cs true)
        | _, none => .error .typeConfusion
      else
        pure (STerm.plainT (.symP childname csort) csort)
    let cs ← mkArrChildren fuel sz inf pre rest
    .ok (some c :: cs)

/-- Modelled from the spec: `array_smt_ast`'s constructor proper, taking the
tuple sort of the array type and the name prefix. -/
def mkArraySmtAst (fuel : Nat) (srt : SSort) (name : String) : Except Err STerm :=
  match srt with
  | .tupS (.arrayT sub sz inf) =>
    match getTypeDef sub with
    | some fields => do
      let cs ← mkArrChildren fuel sz inf name fields
      .ok (.tarrT srt name cs true)
    | none => .error .typeConfusion
  | _ => .error .typeConfusion

/-- One freshly materialized child of `tuple_smt_ast::make_free`: struct
fields get an empty (lazy) `tuple_smt_ast` via `tuple_fresh`, tuple-array
fields a fresh `array_smt_ast`, scalar fields a fresh native symbol (via
`mk_fresh`, modelled from the spec as carrying exactly the
`<prefix>.<field-name>` name). -/
def freshChild (fuel : Nat) (pre fn : String) (fty : Ty) : Except Err STerm :=
  let fieldname := pre ++ "." ++ fn
  let newsort := convertSort fty
  if isTupleAstType fty then
    .ok (.tupT newsort fieldname [])
  else if isTupleArrayAstType fty then
    mkArraySmtAst fuel newsort fieldname
  else
    .ok (.plainT (.symP fieldname newsort) newsort)

/-- The child list built by `tuple_smt_ast::make_free`, in field order. -/
def freshChildren (fuel : Nat) (pre : String) : List (String × Ty) →
    Except Err (List (Option STerm))
  | [] => .ok []
  | (fn, fty) :: rest => do
    let c ← freshChild fuel pre fn fty
    let cs ← freshChildren fuel pre rest
    .ok (some c :: cs)

/-- `tuple_smt_ast::make_free`: a no-op on a populated tuple; on a free
(empty-children) tuple, allocates exactly one child per field of the
descriptor.  Calling it through a non-tuple ast is a failing cast. -/
def makeFree (fuel : Nat) (t : STerm) : Except Err STerm :=
  match t with
  | .tupT srt name elems =>
    if elems.isEmpty then
      match srt with
      | .tupS ty =>
        match getTypeDef ty with
        | some fields => do
          let cs ← freshChildren fuel name fields
          .ok (.tupT srt name cs)
        | none => .error .typeConfusion
      | _ => .error .typeConfusion
    else .ok t
  | _ => .error .typeConfusion

/-- Field projection.  `smt_ast::project` aborts ("Projecting from non-tuple
based AST"); `tuple_smt_ast::project` materializes-if-empty, asserts the
index against the descriptor's member count and returns the (possibly null)
child pointer; `array_smt_ast::project` asserts the index against the child
list and returns the child directly. -/
def sProject (fuel : Nat) (t : STerm) (i : Nat) : Except Err (STerm × Option STerm) :=
  match t with
  | .plainT _ _ => .error .projectOnPlain
  | .tupT _ _ _ => do
    let t2 ← makeFree fuel t
    match t2 with
    | .tupT (.tupS ty) name elems2 =>
      match getTypeDef ty with
      | some fields =>
        if i < fields.length then
          match elems2.get? i with
          | some x => .ok (.tupT (.tupS ty) name elems2, x)
          | none => .error .outOfBounds
        else .error .outOfBounds
      | none => .error .typeConfusion
    | _ => .error .typeConfusion
  | .tarrT _ _ elems _ =>
    match elems.get? i with
    | some x => .ok (t, x)
    | none => .error .outOfBounds

/-- Field loop of `tuple_smt_ast::ite`: for fields `i0, i0+1, ...` (running
over the descriptor), project both sides and combine the children with the
callback (the child-level `ite`, which is the recursive call one fuel level
down).  A null child would be dispatched on and crash. -/
def iteLoop (F : St → STerm → STerm → Except Err (St × STerm × STerm × STerm))
    (pf : Nat) : St → STerm → STerm → Nat → Nat →
    Except Err (St × List (Option STerm))
  | s, _, _, _, 0 => .ok (s, [])
  | s, a, b, i, n + 1 => do
    let (a2, ca) ← sProject pf a i
    let (b2, cb) ← sProject pf b i
    match ca, cb with
    | some ca, some cb => do
      let (s, _, _, r) ← F s ca cb
      let (s, rs) ← iteLoop F pf s a2 b2 (i + 1) n
      .ok (s, some r :: rs)
    | _, _ => .error .nullDeref

/-- Field loop of `array_smt_ast::ite`: the children of both sides are read
directly (tuple-arrays are always populated) and combined pairwise. -/
def tarrIteLoop (F : St → STerm → STerm → Except Err (St × STerm × STerm × STerm)) :
    St → List (Option STerm) → List (Option STerm) → Nat → Nat →
    Except Err (St × List (Option STerm))
  | s, _, _, _, 0 => .ok (s, [])
  | s, ea, eb, i, n + 1 =>
    match ea.get? i, eb.get? i with
    | some (some ca), some (some cb) => do
      let (s, _, _, r) ← F s ca cb
      let (s, rs) ← tarrIteLoop F s ea eb (i + 1) n
      .ok (s, some r :: rs)
    | some none, _ => .error .nullDeref
    | _, some none => .error .nullDeref
    | _, _ => .error .outOfBounds

/-- The `ite` operation (the merge of two terms under a boolean condition).
`smt_ast::ite` is one native if-then-else; `tuple_smt_ast::ite` mints a
fresh result name, materializes both sides, and fills the result with the
field-wise ite of the projections, asserting nothing; `array_smt_ast::ite`
does the same over the per-field array children.  Returns the (possibly
materialized) true side, false side, and the result. -/
def sIte : Nat → St → PTerm → STerm → STerm →
    Except Err (St × STerm × STerm × STerm)
  | 0, _, _, _, _ => .error .outOfFuel
  | _ + 1, s, c, .plainT pt st, .plainT pf sf =>
    .ok (s, .plainT pt st, .plainT pf sf, .plainT (.iteP c pt pf) st)
  | fuel + 1, s, c, .tupT srt na ea, .tupT srtb nb eb => do
    match srt with
    | .tupS ty =>
      match getTypeDef ty with
      | some fields => do
        let (s, name0) := mkFreshName s "tuple_ite::"
        let name := name0 ++ "."
        let tv ← makeFree (fuel + 1) (.tupT srt na ea)
        let fv ← makeFree (fuel + 1) (.tupT srtb nb eb)
        let (s, rs) ← iteLoop (fun s a b => sIte fuel s c a b) fuel s tv fv 0 fields.length
        .ok (s, tv, fv, .tupT srt name rs)
      | none => .error .typeConfusion
    | _ => .error .typeConfusion
  | fuel + 1, s, c, .tarrT srt na ea fa, .tarrT srtb nb eb fb => do
    match srt with
    | .tupS (.arrayT sub _ _) =>
      match getTypeDef sub with
      | some fields => do
        let (s, name0) := mkFreshName s "tuple_array_ite::"
        let name := name0 ++ "."
        let (s, rs) ← tarrIteLoop (fun s a b => sIte fuel s c a b) s ea eb 0 fields.length
        .ok (s, .tarrT srt na ea fa, .tarrT srtb nb eb fb, .tarrT srt name rs true)
      | none => .error .typeConfusion
    | _ => .error .typeConfusion
  | _ + 1, _, _, _, _ => .error .typeConfusion

/-- Field loop of `tuple_smt_ast::eq`: project both sides at each index and
apply the child-level equality callback. -/
def eqLoop (F : STerm → STerm → Except Err PTerm) (pf : Nat) :
    STerm → STerm → Nat → Nat → Except Err (STerm × STerm × List PTerm)
  | a, b, _, 0 => .ok (a, b, [])
  | a, b, i, n + 1 => do
    let (a2, ca) ← sProject pf a i
    let (b2, cb) ← sProject pf b i
    match ca, cb with
    | some ca, some cb => do
      let e ← F ca cb
      let (a3, b3, es) ← eqLoop F pf a2 b2 (i + 1) n
      .ok (a3, b3, e :: es)
    | _, _ => .error .nullDeref

/-- Field loop of `array_smt_ast::eq`: children are read directly. -/
def tarrEqLoop (F : STerm → STerm → Except Err PTerm) :
    List (Option STerm) → List (Option STerm) → Nat → Nat →
    Except Err (List PTerm)
  | _, _, _, 0 => .ok []
  | ea, eb, i, n + 1 =>
    match ea.get? i, eb.get? i with
    | some (some ca), some (some cb) => do
      let e ← F ca cb
      let es ← tarrEqLoop F ea eb (i + 1) n
      .ok (e :: es)
    | some none, _ => .error .nullDeref
    | _, some none => .error .nullDeref
    | _, _ => .error .outOfBounds

/-- Equality of terms.  `smt_ast::eq` is one native equality;
`tuple_smt_ast::eq` materializes the other side and conjoins the field-wise
equalities of the projections; `array_smt_ast::eq` conjoins the equalities
of the per-field array children.  Returns the two (possibly materialized)
sides and the boolean term. -/
def sEq : Nat → STerm → STerm → Except Err (STerm × STerm × PTerm)
  | 0, _, _ => .error .outOfFuel
  | _ + 1, .plainT p ps, .plainT q qs => .ok (.plainT p ps, .plainT q qs, .eqP p q)
  | fuel + 1, .tupT srt na ea, b => do
    let b2 ← makeFree (fuel + 1) b
    match srt with
    | .tupS ty =>
      match getTypeDef ty with
      | some fields => do
        let (a3, b3, es) ← eqLoop
          (fun x y => do
            let (_, _, e) ← sEq fuel x y
            pure e)
          fuel (.tupT srt na ea) b2 0 fields.length
        .ok (a3, b3, makeConjunct es)
      | none => .error .typeConfusion
    | _ => .error .typeConfusion
  | fuel + 1, .tarrT srt na ea fa, .tarrT srtb nb eb fb => do
    match srt with
    | .tupS (.arrayT sub _ _) =>
      match getTypeDef sub with
      | some fields => do
        let es ← tarrEqLoop
          (fun x y => do
            let (_, _, e) ← sEq fuel x y
            pure e)
          ea eb 0 fields.length
        .ok (.tarrT srt na ea fa, .tarrT srtb nb eb fb, makeConjunct es)
      | none => .error .typeConfusion
    | _ => .error .typeConfusion
  | _ + 1, _, _ => .error .typeConfusion

/-- Field loop of `array_smt_ast::update`: every field of `this` is read,
the corresponding field is projected out of the stored value, and the
per-field array child is updated at the index via the callback. -/
def taUpdLoop (Pj : STerm → Nat → Except Err (STerm × Option STerm))
    (F : St → STerm → STerm → Except Err (St × STerm)) :
    St → List (Option STerm) → STerm → Nat → Nat →
    Except Err (St × STerm × List (Option STerm))
  | s, _, v, _, 0 => .ok (s, v, [])
  | s, elems, v, i, n + 1 =>
    match elems.get? i with
    | some (some field) => do
      let (v2, rv) ← Pj v i
      match rv with
      | some rv => do
        let (s, upd) ← F s field rv
        let (s, v3, rs) ← taUpdLoop Pj F s elems v2 (i + 1) n
        .ok (s, v3, some upd :: rs)
      | none => .error .nullDeref
    | some none => .error .nullDeref
    | none => .error .outOfBounds

/-- Functional update.  `smt_ast::update` asserts the receiver is an array
and emits one native store (a nil index expression means the constant
`idx`); `tuple_smt_ast::update` (constant index only) mints a fresh result
name, copies the child list into the result, materializes the *result*, and
replaces child `idx`; `array_smt_ast::update` builds a fresh tuple-array
whose fields are the index-wise updates with the fields projected out of the
value.  Returns the (possibly materialized) value and the result; the
receiver is never modified. -/
def sUpdate : Nat → St → STerm → STerm → Nat → Option PTerm →
    Except Err (St × STerm × STerm)
  | 0, _, _, _, _, _ => .error .outOfFuel
  | _ + 1, s, .plainT p ps, v, idx, idxe =>
    match ps with
    | .arrS dom rng =>
      let index := match idxe with
        | none => PTerm.bvConst dom idx
        | some e => e
      match v with
      | .plainT q _ => .ok (s, v, .plainT (.storeP p index q) (.arrS dom rng))
      | _ => .error .typeConfusion
    | _ => .error .typeConfusion
  | fuel + 1, s, .tupT srt _ ea, v, idx, idxe =>
    match idxe with
    | some _ => .error .typeConfusion
    | none => do
      let (s, name0) := mkFreshName s "tuple_update::"
      let name := name0 ++ "."
      let r ← makeFree (fuel + 1) (.tupT srt name ea)
      match r with
      | .tupT _ _ e2 =>
        if idx < e2.length then .ok (s, v, .tupT srt name (e2.set idx (some v)))
        else .error .outOfBounds
      | _ => .error .typeConfusion
  | fuel + 1, s, .tarrT srt _ ea _, v, idx, idxe =>
    match srt with
    | .tupS (.arrayT sub _ _) =>
      match getTypeDef sub with
      | some fields => do
        let index := match idxe with
          | none => PTerm.bvConst domWidth idx
          | some e => e
        let (s, name0) := mkFreshName s "tuple_array_update::"
        let name := name0 ++ "."
        let (s, v2, rs) ← taUpdLoop (sProject fuel)
          (fun s fld rv => do
            let (s, _, u) ← sUpdate fuel s fld rv 0 (some index)
            pure (s, u)) s ea v 0 fields.length
        .ok (s, v2, .tarrT srt name rs true)
      | none => .error .typeConfusion
    | _ => .error .typeConfusion

/-- Modelled from the spec: the `no_bools_in_arrays` backend workaround flag
(a per-solver property; the default backend behaviour is modelled). -/
def noBoolsInArrays : Bool := false

/-- Bit width of a scalar sort (`smt_sort::data_width` of an array's range). -/
def sortWidth : SSort → Nat
  | .boolS => 1
  | .bvS w => w
  | _ => 0

/-- Field loop of `array_smt_ast::select`. -/
def taSelLoop (F : St → STerm → Except Err (St × STerm)) :
    St → List (Option STerm) → Nat → Nat →
    Except Err (St × List (Option STerm))
  | s, _, _, 0 => .ok (s, [])
  | s, elems, i, n + 1 =>
    match elems.get? i with
    | some (some c) => do
      let (s, r) ← F s c
      let (s, rs) ← taSelLoop F s elems (i + 1) n
      .ok (s, some r :: rs)
    | some none => .error .nullDeref
    | none => .error .outOfBounds

/-- Indexing.  `smt_ast::select` asserts the receiver is an array, guesses
the range sort from the data width, and emits one native select;
`tuple_smt_ast::select` aborts ("Select operation applied to tuple");
`array_smt_ast::select` selects from every per-field array child and
assembles the results into a fresh scalar tuple (not linked to the array). -/
def sSelect : Nat → St → STerm → PTerm → Except Err (St × STerm)
  | _, s, .plainT p ps, idx =>
    match ps with
    | .arrS _dom rng =>
      let dw := sortWidth rng
      let rsort := if dw == 1 && !noBoolsInArrays then SSort.boolS else SSort.bvS dw
      .ok (s, .plainT (.selectP p idx) rsort)
    | _ => .error .typeConfusion
  | _, _, .tupT _ _ _, _ => .error .selectOnTuple
  | 0, _, .tarrT _ _ _ _, _ => .error .outOfFuel
  | fuel + 1, s, .tarrT srt _ elems _, idx =>
    match srt with
    | .tupS (.arrayT sub _ _) =>
      match getTypeDef sub with
      | some fields => do
        let rsort := convertSort sub
        let (s, name0) := mkFreshName s "tuple_array_select::"
        let name := name0 ++ "."
        let (s, rs) ← taSelLoop (fun s c => sSelect fuel s c idx) s elems 0 fields.length
        .ok (s, .tupT rsort name rs)
      | none => .error .typeConfusion
    | _ => .error .typeConfusion

/-- `smt_convt::tuple_fresh`: an empty name mints a fresh `tuple_fresh::N.`
name; the symbol is declared with the backend, and an array-sorted request
yields a fresh `array_smt_ast`, anything else a free `tuple_smt_ast`. -/
def tupleFresh (fuel : Nat) (s : St) (srt : SSort) (name : String) :
    Except Err (St × STerm) :=
  let (s, name) :=
    if name = "" then
      let p := mkFreshName s "tuple_fresh::"
      (p.1, p.2 ++ ".")
    else (s, name)
  match srt with
  | .arrS _ _ => do
    let a ← mkArraySmtAst fuel srt name
    .ok (s, a)
  | .tupS (.arrayT sub sz inf) => do
    let a ← mkArraySmtAst fuel (.tupS (.arrayT sub sz inf)) name
    .ok (s, a)
  | _ => .ok (s, .tupT srt name [])

/-- Modelled from the spec: the canonical null-pointer sentinel
(`null_ptr_ast`, created once by `smt_conv.cpp` and referenced immutably):
it encodes the 2-field (0, 0) structured value of the canonical pointer
shape. -/
def nullPtrAst : STerm :=
  .tupT (.tupS .pointer) "smt_conv::NULL."
    [some (.plainT (.bvConst ptrWidth 0) (.bvS ptrWidth)),
     some (.plainT (.bvConst ptrWidth 0) (.bvS ptrWidth))]

/-- Modelled from the spec: the canonical invalid-pointer sentinel
(`invalid_ptr_ast`), the second process-lifetime sentinel. -/
def invalidPtrAst : STerm :=
  .tupT (.tupS .pointer) "smt_conv::INVALID."
    [some (.plainT (.bvConst ptrWidth 1) (.bvS ptrWidth)),
     some (.plainT (.bvConst ptrWidth 0) (.bvS ptrWidth))]

/-- `smt_convt::mk_tuple_symbol`: the special symbol names `0` / `NULL` /
`INVALID` are intercepted and resolve to the pointer sentinels; otherwise
the name receives a single trailing `.` (never accumulating dots), the sort
is asserted not to be an array sort, and a free tuple ast is returned. -/
def mkTupleSymbol (s : St) (ty : Ty) (name : String) : Except Err (St × STerm) :=
  if name = "0" || name = "NULL" then .ok (s, nullPtrAst)
  else if name = "INVALID" then .ok (s, invalidPtrAst)
  else
    let name2 := if name.endsWith "." then name else name ++ "."
    match convertSort ty with
    | .arrS _ _ => .error .typeConfusion
    | srt => .ok (s, .tupT srt name2 [])

/-- `smt_convt::mk_tuple_array_symbol`: like `mk_tuple_symbol` but the name
gets a `[]` suffix and the result is an `array_smt_ast`. -/
def mkTupleArraySymbol (fuel : Nat) (s : St) (ty : Ty) (name : String) :
    Except Err (St × STerm) := do
  let a ← mkArraySmtAst fuel (convertSort ty) (name ++ "[]")
  .ok (s, a)

/-- The fragment of the `expr2tc` hierarchy the claims exercise: scalar
constants, constant structs (`constant_struct2t`), constant unions with
their single initializer member (`constant_union2t`), symbols, and array
literals. -/
inductive Expr where
  | constInt : Ty → Nat → Expr
  | constBool : Bool → Expr
  | constStruct : Ty → List Expr → Expr
  | constUnion : Ty → Expr → Expr
  | symE : Ty → String → Expr
  | constArray : Ty → List Expr → Expr
  | constArrayOf : Ty → Expr → Expr

/-- Type of an expression (`expr2t::type`). -/
def exprType : Expr → Ty
  | .constInt ty _ => ty
  | .constBool _ => .bool
  | .constStruct ty _ => ty
  | .constUnion ty _ => ty
  | .symE ty _ => ty
  | .constArray ty _ => ty
  | .constArrayOf ty _ => ty

/-- State-threaded conversion of a list of expressions, in order (the loop
body of `tuple_create`); the callback is `convert_ast` one fuel level down. -/
def convList (F : St → Expr → Except Err (St × STerm)) :
    St → List Expr → Except Err (St × List (Option STerm))
  | s, [] => .ok (s, [])
  | s, m :: ms => do
    let (s, t) ← F s m
    let (s, ts) ← convList F s ms
    .ok (s, some t :: ts)

/-- `smt_convt::tuple_create`: mint a fresh `tuple_create::N.` name, convert
every sub-expression of the literal, and return an immediately fully
populated tuple — no laziness. -/
def tupleCreate (F : St → Expr → Except Err (St × STerm)) (s : St)
    (ty : Ty) (ms : List Expr) : Except Err (St × STerm) := do
  let (s, name0) := mkFreshName s "tuple_create::"
  let name := name0 ++ "."
  let (s, es) ← convList F s ms
  .ok (s, .tupT (convertSort ty) name es)

/-- Modelled from the spec: the constant/symbol dispatch of
`smt_convt::convert_ast` (in `smt_conv.cpp`): scalar constants become native
constant terms, `constant_struct2t` goes to `tuple_create`, and symbols go
to `mk_tuple_symbol` / `mk_tuple_array_symbol` / a native symbol according
to their type.  Array literals and constant unions are routed by the same
dispatcher to `array_create` / `union_create`, which the development invokes
directly (they are defined below this function). -/
def convertAst : Nat → St → Expr → Except Err (St × STerm)
  | 0, _, _ => .error .outOfFuel
  | fuel + 1, s, e =>
    match e with
    | .constInt (.bv w) v => .ok (s, .plainT (.bvConst w v) (.bvS w))
    | .constInt _ _ => .error .typeConfusion
    | .constBool b => .ok (s, .plainT (.boolConst b) .boolS)
    | .constStruct ty ms => tupleCreate (convertAst fuel) s ty ms
    | .symE ty name =>
      if isTupleAstType ty then mkTupleSymbol s ty name
      else if isTupleArrayAstType ty then mkTupleArraySymbol (fuel + 1) s ty name
      else .ok (s, .plainT (.symP name (convertSort ty)) (convertSort ty))
    | _ => .error .unsupported

/-- The member loop of `smt_convt::union_create`, carried out over the
resized (null-slotted) element vector of the union symbol's tuple ast: a
member whose type `base_type_eq`-matches the initializer's type is projected
out (returning the null slot), has an equality to the initializer asserted
(a call through the null child), and the slot set to the initializer's ast;
a non-matching tuple-typed member gets a `tuple_fresh` placeholder, a
non-matching tuple-array-typed member a fresh `array_smt_ast`; a
non-matching scalar member is left untouched (its slot stays null). -/
def ucLoop (fuel : Nat) (initTy : Ty) (initAst : STerm) :
    St → List (Option STerm) → Nat → List (String × Ty) →
    Except Err (St × List (Option STerm))
  | s, elems, _, [] => .ok (s, elems)
  | s, elems, i, (_, fty) :: rest =>
    if baseTypeEq fty initTy then
      match elems.get? i with
      | none => .error .outOfBounds
      | some none => .error .nullDeref
      | some (some target) => do
        let (_, _, eqTerm) ← sEq fuel target initAst
        let s := { s with assertions := s.assertions ++ [eqTerm] }
        ucLoop fuel initTy initAst s (elems.set i (some initAst)) (i + 1) rest
    else if isTupleAstType fty then do
      let (s, fr) ← tupleFresh fuel s (convertSort fty) ""
      ucLoop fuel initTy initAst s (elems.set i (some fr)) (i + 1) rest
    else if isTupleArrayAstType fty then do
      let (s, name2) := mkFreshName s "union_create_elem"
      let c ← mkArraySmtAst fuel (convertSort fty) name2
      ucLoop fuel initTy initAst s (elems.set i (some c)) (i + 1) rest
    else
      ucLoop fuel initTy initAst s elems (i + 1) rest

/-- `smt_convt::union_create`: mint a fresh `union_create::N.` name, convert
the union symbol (an empty tuple ast) and the single initializer member,
resize the symbol tuple's element vector to the member count (null slots),
run the member loop, and return a *new empty* tuple ast of the same name.
The result is the pair (returned ast, the intermediate symbol tuple as the
loop left it). -/
def unionCreate (fuel : Nat) (s : St) (e : Expr) :
    Except Err (St × STerm × STerm) :=
  match e with
  | .constUnion uty init =>
    match getTypeDef uty with
    | none => .error .typeConfusion
    | some fields => do
      let (s, name0) := mkFreshName s "union_create::"
      let name := name0 ++ "."
      let rsort := convertSort uty
      let (s, initAst) ← convertAst fuel s init
      let elems0 : List (Option STerm) := List.replicate fields.length none
      let (s, elems) ← ucLoop fuel (exprType init) initAst s elems0 0 fields
      .ok (s, .tupT rsort name [], .tupT rsort name elems)
  | _ => .error .typeConfusion

/-- The store loop of `tuple_array_create`: repeatedly update the fresh
tuple-array symbol at indices `0, 1, ...` with the (single repeated or
per-index) initializer. -/
def tacLoop (F : St → STerm → STerm → Nat → Except Err (St × STerm))
    (args : List STerm) (constArr : Bool) :
    St → STerm → Nat → Nat → Except Err (St × STerm)
  | s, cur, _, 0 => .ok (s, cur)
  | s, cur, i, n + 1 => do
    let arg ←
      match if constArr then args.get? 0 else args.get? i with
      | some a => pure a
      | none => .error .outOfBounds
    let (s, cur2) ← F s cur arg i
    tacLoop F args constArr s cur2 (i + 1) n

/-- `smt_convt::tuple_array_create`: build a fresh tuple-array symbol, then:
an infinite-sized array is returned as-is ("guarantee nothing"); a
non-constant-sized finite array is fatal ("Non-constant sized array of type
constant_array_of2t", `abort()`); otherwise the symbol is updated once per
index with the initializer(s). -/
def tupleArrayCreate (fuel : Nat) (s : St) (arrTy : Ty) (args : List STerm)
    (constArr : Bool) : Except Err (St × STerm) := do
  let srt := convertSort arrTy
  let (s, name0) := mkFreshName s "tuple_array_create::"
  let name := name0 ++ "."
  let newsym ← mkArraySmtAst fuel srt name
  match arrTy with
  | .arrayT _ sz inf =>
    if inf then .ok (s, newsym)
    else
      match sz with
      | .nonConst => .error .nonConstArraySize
      | .constInt n =>
        tacLoop
          (fun s cur a i => do
            let (s, _, u) ← sUpdate fuel s cur a i none
            pure (s, u)) args constArr s newsym 0 n
  | _ => .error .typeConfusion

/-- The store loop of `array_create`: convert each literal element and store
it at its index. -/
def acLoop (F : St → Expr → Except Err (St × STerm))
    (U : St → STerm → STerm → Nat → Except Err (St × STerm))
    (ms : List Expr) : St → STerm → Nat → Nat → Except Err (St × STerm)
  | s, cur, _, 0 => .ok (s, cur)
  | s, cur, i, n + 1 =>
    match ms.get? i with
    | none => .error .outOfBounds
    | some initE => do
      let (s, ia) ← F s initE
      let (s, cur2) ← U s cur ia i
      acLoop F U ms s cur2 (i + 1) n

/-- `smt_convt::array_create` for non-structured arrays: a
`constant_array_of2t` is routed to `convert_array_of_prep` (not modelled
here); for a `constant_array2t`, mint a fresh `array_create::N.` symbol,
return it unconstrained if the array is flagged infinite, abort on a
non-constant size, and otherwise store every literal element at its index. -/
def arrayCreate (fuel : Nat) (s : St) (e : Expr) : Except Err (St × STerm) :=
  match e with
  | .constArrayOf _ _ => .error .unsupported
  | .constArray ty ms =>
    match ty with
    | .arrayT sub sz inf => do
      let (s, name0) := mkFreshName s "array_create::"
      let name := name0 ++ "."
      if inf then convertAst fuel s (.symE (.arrayT sub sz inf) name)
      else
        match sz with
        | .nonConst => .error .nonConstArraySize
        | .constInt n => do
          let (s, base) ← convertAst fuel s (.symE (.arrayT sub sz inf) name)
          acLoop (convertAst fuel)
            (fun s cur a i => do
              let (s, _, u) ← sUpdate fuel s cur a i none
              pure (s, u)) ms s base 0 n
    | _ => .error .typeConfusion
  | _ => .error .typeConfusion

/-- Concrete aggregate values reconstructed from a solved model
(`tuple_get_rec`'s `constant_struct2tc` output with possibly-nil members,
plus the pointer rewrite's `pointer_expr` result). -/
inductive DecodedVal where
  | structV : Ty → List (Option DecodedVal) → DecodedVal
  | intV : Ty → Nat → DecodedVal
  | boolV : Bool → DecodedVal
  | pointerV : Nat → Nat → DecodedVal

/-- Modelled from the spec: `pointer_logict::pointer_expr` — the decoded
pointer value for an (object-id, offset) pair; (0, 0) is the canonical null
pointer. -/
def pointerExpr (obj offs : Nat) : DecodedVal := .pointerV obj offs

/-- The canonical null-pointer value. -/
def nullPointerVal : DecodedVal := .pointerV 0 0

/-- The field loop of `tuple_get_rec`: struct fields recurse through the
callback, tuple-array fields decode to the no-value placeholder (marked
"currently unimplemented"), numeric fields read the model value of the
child term (`get_bv`, modelled from the spec as model evaluation), boolean
fields likewise (`get_bool`), plain array fields decode to the no-value
placeholder ("Fetching array elements inside tuples currently
unimplemented"), and anything else aborts. -/
def getRecLoop (G : STerm → Except Err DecodedVal) (env : String → Val)
    (elems : List (Option STerm)) :
    Nat → List (String × Ty) → Except Err (List (Option DecodedVal))
  | _, [] => .ok []
  | i, (_, fty) :: rest => do
    let r ←
      if isTupleAstType fty then
        match elems.get? i with
        | some (some child) => do
          let d ← G child
          pure (some d)
        | some none => .error .nullDeref
        | none => .error .outOfBounds
      else if isTupleArrayAstType fty then
        pure none
      else if isNumberType fty then
        match elems.get? i with
        | some (some (.plainT p _)) => pure (some (DecodedVal.intV fty (toNatV (evalP env p))))
        | some (some _) => .error .typeConfusion
        | some none => .error .nullDeref
        | none => .error .outOfBounds
      else if isBoolType fty then
        match elems.get? i with
        | some (some (.plainT p _)) => pure (some (DecodedVal.boolV (isTrueV (evalP env p))))
        | some (some _) => .error .typeConfusion
        | some none => .error .nullDeref
        | none => .error .outOfBounds
      else if isArrayType fty then
        pure none
      else
        .error .unsupported
    let rs ← getRecLoop G env elems (i + 1) rest
    .ok (r :: rs)

/-- `smt_convt::tuple_get_rec`: a free (never-materialized) tuple decodes to
one explicit no-value placeholder per field, with no pointer rewrite;
otherwise every field is decoded in order and, if the carried type is the
canonical pointer shape, the first two members are reinterpreted as the
(object-id, offset) of a pointer value. -/
def tupleGetRec : Nat → (String → Val) → STerm → Except Err DecodedVal
  | 0, _, _ => .error .outOfFuel
  | fuel + 1, env, .tupT (.tupS ty) _ elems =>
    match getTypeDef ty with
    | none => .error .typeConfusion
    | some fields =>
      if elems.isEmpty then
        .ok (.structV ty (fields.map fun _ => none))
      else do
        let ms ← getRecLoop (tupleGetRec fuel env) env elems 0 fields
        if isPointerShape ty then
          match ms with
          | some (.intV _ a) :: some (.intV _ b) :: _ => .ok (pointerExpr a b)
          | _ => .error .typeConfusion
        else .ok (.structV ty ms)
  | _ + 1, _, _ => .error .typeConfusion

/-- `smt_convt::tuple_get`: asserts the expression is a symbol, converts it
and decodes the resulting tuple ast against the model. -/
def tupleGet (fuel : Nat) (s : St) (env : String → Val) (e : Expr) :
    Except Err DecodedVal :=
  match e with
  | .symE _ _ => do
    let (_, t) ← convertAst fuel s e
    tupleGetRec fuel env t
  | _ => .error .typeConfusion

/-- `smt_convt::tuple_array_get`: prints "Tuple array get currently
unimplemented" and returns the empty expression — the no-value placeholder —
for every input. -/
def tupleArrayGet (_ : Expr) : Option DecodedVal := none

/-! ## General inversion helpers -/

theorem exBindOk {α β : Type} {m : Except Err α} {f : α → Except Err β} {r : β} :
    (m >>= f) = .ok r ↔ ∃ a, m = .ok a ∧ f a = .ok r := by
  cases m <;> simp [bind, Except.bind]

theorem makeFree_populated (fuel : Nat) (srt : SSort) (name : String)
    (e0 : Option STerm) (elems : List (Option STerm)) :
    makeFree fuel (.tupT srt name (e0 :: elems)) = .ok (.tupT srt name (e0 :: elems)) := rfl

theorem mkArraySmtAst_name (fuel : Nat) (srt : SSort) (name : String) (c : STerm)
    (h : mkArraySmtAst fuel srt name = .ok c) : termName c = name := by
  unfold mkArraySmtAst at h
  split at h
  next sub sz inf =>
    cases hdef : getTypeDef sub with
    | none => rw [hdef] at h; exact absurd h (by simp)
    | some fields =>
      rw [hdef] at h
      dsimp only at h
      rw [exBindOk] at h
      obtain ⟨cs, _, h⟩ := h
      simp only [Except.ok.injEq] at h
      subst h; rfl
  next hne => exact absurd h (by simp)

theorem freshChild_name (fuel : Nat) (pre fn : String) (fty : Ty) (c : STerm)
    (h : freshChild fuel pre fn fty = .ok c) : termName c = pre ++ "." ++ fn := by
  unfold freshChild at h
  split at h
  · simp only [Except.ok.injEq] at h; subst h; rfl
  · split at h
    · exact mkArraySmtAst_name _ _ _ _ h
    · simp only [Except.ok.injEq] at h; subst h; rfl

theorem freshChildren_spec (fuel : Nat) (pre : String) :
    ∀ (fields : List (String × Ty)) (cs : List (Option STerm)),
    freshChildren fuel pre fields = .ok cs →
    cs.length = fields.length ∧
    ∀ k fn fty, fields.get? k = some (fn, fty) →
      ∃ c, cs.get? k = some (some c) ∧ termName c = pre ++ "." ++ fn := by
  intro fields
  induction fields with
  | nil =>
    intro cs h
    simp only [freshChildren, Except.ok.injEq] at h
    subst h
    exact ⟨rfl, by intro k fn fty hk; simp at hk⟩
  | cons hd tl ih =>
    intro cs h
    obtain ⟨fn, fty⟩ := hd
    simp only [freshChildren] at h
    rw [exBindOk] at h
    obtain ⟨c, hc, h⟩ := h
    rw [exBindOk] at h
    obtain ⟨cs', hcs, h⟩ := h
    simp only [Except.ok.injEq] at h
    subst h
    obtain ⟨hlen, hget⟩ := ih cs' hcs
    refine ⟨by simp [hlen], ?_⟩
    intro k gn gty hk
    cases k with
    | zero =>
      simp only [List.get?] at hk ⊢
      cases hk
      exact ⟨c, rfl, freshChild_name _ _ _ _ _ hc⟩
    | succ k =>
      simp only [List.get?] at hk ⊢
      exact hget k gn gty hk

theorem sProject_populated {fuel i : Nat} {ty : Ty} {n : String}
    {e0 : Option STerm} {e : List (Option STerm)} {fields : List (String × Ty)}
    (hdef : getTypeDef ty = some fields) (hi : i < fields.length)
    {x : Option STerm} (hx : (e0 :: e).get? i = some x) :
    sProject fuel (.tupT (.tupS ty) n (e0 :: e)) i =
      .ok (.tupT (.tupS ty) n (e0 :: e), x) := by
  simp only [sProject, makeFree_populated, bind, Except.bind, hdef, if_pos hi]
  rw [hx]

theorem makeFree_shape {fuel : Nat} {srt : SSort} {n : String}
    {e : List (Option STerm)} {t2 : STerm}
    (h : makeFree fuel (.tupT srt n e) = .ok t2) :
    (e ≠ [] ∧ t2 = .tupT srt n e) ∨
    (e = [] ∧ ∃ ty fields cs, srt = .tupS ty ∧ getTypeDef ty = some fields ∧
      freshChildren fuel n fields = .ok cs ∧ t2 = .tupT srt n cs) := by
  cases e with
  | cons e0 rest =>
    left
    rw [makeFree_populated] at h
    simp only [Except.ok.injEq] at h
    exact ⟨by simp, h.symm⟩
  | nil =>
    right
    refine ⟨rfl, ?_⟩
    unfold makeFree at h
    simp only [List.isEmpty, if_true] at h
    cases srt with
    | tupS ty =>
      dsimp only at h
      cases hdef : getTypeDef ty with
      | none => rw [hdef] at h; exact absurd h (by simp)
      | some fields =>
        rw [hdef] at h
        dsimp only at h
        rw [exBindOk] at h
        obtain ⟨cs, hcs, h⟩ := h
        simp only [Except.ok.injEq] at h
        exact ⟨ty, fields, cs, rfl, hdef, hcs, h.symm⟩
    | boolS => exact absurd h (by simp)
    | bvS w => exact absurd h (by simp)
    | arrS d r => exact absurd h (by simp)

theorem sProject_tup_ok {fuel i : Nat} {srt : SSort} {n : String}
    {e : List (Option STerm)} {t2 : STerm} {c : Option STerm}
    (h : sProject fuel (.tupT srt n e) i = .ok (t2, c)) :
    ∃ ty fields e2, srt = .tupS ty ∧ getTypeDef ty = some fields ∧
      t2 = .tupT srt n e2 ∧ i < fields.length ∧ e2.get? i = some c ∧
      (e ≠ [] → e2 = e) := by
  simp only [sProject] at h
  rw [exBindOk] at h
  obtain ⟨tm, htm, h⟩ := h
  obtain hsh := makeFree_shape htm
  have hshape : ∃ e2, tm = .tupT srt n e2 ∧ (e ≠ [] → e2 = e) := by
    rcases hsh with ⟨hne, rfl⟩ | ⟨hnil, ty, fields, cs, hsrt, hdef, hcs, rfl⟩
    · exact ⟨e, rfl, fun _ => rfl⟩
    · exact ⟨cs, rfl, fun hh => absurd hnil hh⟩
  obtain ⟨e2, rfl, he2⟩ := hshape
  cases srt with
  | tupS ty =>
    dsimp only at h
    cases hdef : getTypeDef ty with
    | none => rw [hdef] at h; exact absurd h (by simp)
    | some fields =>
      rw [hdef] at h
      dsimp only at h
      by_cases hi : i < fields.length
      · rw [if_pos hi] at h
        cases hget : e2.get? i with
        | none => rw [hget] at h; exact absurd h (by simp)
        | some x =>
          rw [hget] at h
          simp only [Except.ok.injEq, Prod.mk.injEq] at h
          obtain ⟨h1, h2⟩ := h
          subst h1; subst h2
          exact ⟨ty, fields, e2, rfl, hdef, rfl, hi, hget, he2⟩
      · rw [if_neg hi] at h; exact absurd h (by simp)
  | boolS => exact absurd h (by simp)
  | bvS w => exact absurd h (by simp)
  | arrS d r => exact absurd h (by simp)

theorem sProject_idem (fuel : Nat) (t : STerm) (i : Nat) (t2 : STerm)
    (c : Option STerm) (h : sProject fuel t i = .ok (t2, c)) :
    sProject fuel t2 i = .ok (t2, c) := by
  cases t with
  | plainT p srt => exact absurd h (by simp [sProject])
  | tarrT srt n e fr =>
    simp only [sProject] at h ⊢
    cases hget : e.get? i with
    | none => rw [hget] at h; exact absurd h (by simp)
    | some x =>
      rw [hget] at h
      simp only [Except.ok.injEq, Prod.mk.injEq] at h
      obtain ⟨h1, h2⟩ := h
      subst h1; subst h2
      dsimp only
      rw [hget]
  | tupT srt n e =>
    obtain ⟨ty, fields, e2, hsrt, hdef, ht2, hi, hget, _⟩ := sProject_tup_ok h
    subst hsrt; subst ht2
    cases e2 with
    | nil => simp at hget
    | cons x xs => exact sProject_populated hdef hi hget

theorem makeFree_free (fuel : Nat) (ty : Ty) (name : String)
    (fields : List (String × Ty)) (cs : List (Option STerm))
    (hdef : getTypeDef ty = some fields)
    (hcs : freshChildren fuel name fields = .ok cs) :
    makeFree fuel (.tupT (.tupS ty) name []) = .ok (.tupT (.tupS ty) name cs) := by
  unfold makeFree
  simp only [List.isEmpty_nil, if_true]
  rw [hdef]
  dsimp only
  rw [hcs]
  rfl

/-! ## Claim C4 -/

/-- C4: for the union with members {x: 8-bit integer, y: boolean} initialized
as x = 7, `union_create` resizes the union symbol's child vector with null
slots, projects the matching member — obtaining the null slot — and calls
`eq` through that null pointer: the run faults (undefined behaviour /
crash) instead of constraining x to 7 and leaving y as a free placeholder. -/
theorem union_create_null_child_fatal :
    unionCreate 9 ⟨0, []⟩
      (.constUnion (.unionT "u" [("x", .bv 8), ("y", .bool)])
        (.constInt (.bv 8) 7)) =
      .error .nullDeref := rfl

/-! ## Claim C6 -/

/-- C6: invalid accesses are fatal, never silent: projecting from a Plain
term aborts; `select` on a Tuple (record) term aborts; an out-of-bounds
projection on a populated tuple or on a tuple-array is a failed assertion;
and a successful tuple projection is always in bounds (no wraparound). -/
theorem fatal_invalid_access :
    (∀ fuel p srt i, sProject fuel (.plainT p srt) i = .error .projectOnPlain) ∧
    (∀ fuel s srt name elems idx,
      sSelect fuel s (.tupT srt name elems) idx = .error .selectOnTuple) ∧
    (∀ fuel ty name e0 elems fields i, getTypeDef ty = some fields →
      fields.length ≤ i →
      sProject fuel (.tupT (.tupS ty) name (e0 :: elems)) i = .error .outOfBounds) ∧
    (∀ fuel srt name elems fr i, elems.length ≤ i →
      sProject fuel (.tarrT srt name elems fr) i = .error .outOfBounds) ∧
    (∀ fuel ty name fields elems i t2 c, getTypeDef ty = some fields →
      sProject fuel (.tupT (.tupS ty) name elems) i = .ok (t2, c) →
      i < fields.length) := by
  refine ⟨fun _ _ _ _ => rfl, fun fuel _ _ _ _ _ => by cases fuel <;> rfl, ?_, ?_, ?_⟩
  · intro fuel ty name e0 elems fields i hdef hge
    simp only [sProject, makeFree_populated, bind, Except.bind, hdef]
    simp [Nat.not_lt.mpr hge]
  · intro fuel srt name elems fr i hge
    simp [sProject, List.getElem?_eq_none hge]
  · intro fuel ty name fields elems i t2 c hdef h
    obtain ⟨ty', fields', e2, hsrt, hdef', _, hi, _, _⟩ := sProject_tup_ok h
    cases hsrt
    rw [hdef] at hdef'
    cases hdef'
    exact hi

/-- Concrete instantiation of `fatal_invalid_access`. -/
theorem fatal_invalid_access_witness :
    sProject 1 (.plainT (.boolConst true) .boolS) 0 = .error .projectOnPlain ∧
    sSelect 1 ⟨0, []⟩ (.tupT (.tupS (.structT "s" [("a", .bv 8)])) "x." [])
      (.bvConst 32 0) = .error .selectOnTuple ∧
    sProject 1 (.tupT (.tupS (.structT "s" [("a", .bv 8)])) "x."
      [some (.plainT (.symP "x..a" (.bvS 8)) (.bvS 8))]) 3 = .error .outOfBounds ∧
    sProject 1 (.tarrT (.tupS (.arrayT (.structT "s" [("a", .bv 8)])
      (.constInt 2) false)) "y." [] true) 0 = .error .outOfBounds :=
  ⟨fatal_invalid_access.1 1 _ _ 0,
   fatal_invalid_access.2.1 1 _ _ _ _ _,
   fatal_invalid_access.2.2.1 1 (.structT "s" [("a", .bv 8)]) "x."
     (some (.plainT (.symP "x..a" (.bvS 8)) (.bvS 8))) [] [("a", Ty.bv 8)] 3
     rfl (by decide),
   fatal_invalid_access.2.2.2.1 1 _ "y." [] true 0 (by decide)⟩

/-! ## Claim C7 -/

/-- C7: materialization is idempotent: `make_free` on an already populated
tuple changes nothing; on a free tuple it allocates exactly one child per
field of the descriptor, each named `<prefix>.<field-name>`; and a repeated
projection returns the identical child of the identical term. -/
theorem materialization_idempotence :
    (∀ fuel srt name e0 elems,
      makeFree fuel (.tupT srt name (e0 :: elems)) =
        .ok (.tupT srt name (e0 :: elems))) ∧
    (∀ fuel ty name fields cs, getTypeDef ty = some fields →
      freshChildren fuel name fields = .ok cs →
      makeFree fuel (.tupT (.tupS ty) name []) = .ok (.tupT (.tupS ty) name cs) ∧
      cs.length = fields.length ∧
      (∀ k fn fty, fields.get? k = some (fn, fty) →
        ∃ c, cs.get? k = some (some c) ∧ termName c = name ++ "." ++ fn)) ∧
    (∀ fuel t i t2 c, sProject fuel t i = .ok (t2, c) →
      sProject fuel t2 i = .ok (t2, c)) := by
  refine ⟨fun fuel srt name e0 elems => makeFree_populated fuel srt name e0 elems, ?_,
    fun fuel t i t2 c h => sProject_idem fuel t i t2 c h⟩
  intro fuel ty name fields cs hdef hcs
  obtain ⟨hlen, hget⟩ := freshChildren_spec fuel name fields cs hcs
  exact ⟨makeFree_free fuel ty name fields cs hdef hcs, hlen, hget⟩

/-- Concrete instantiation of `materialization_idempotence`. -/
theorem materialization_idempotence_witness :
    makeFree 1 (.tupT (.tupS (.structT "s" [("a", Ty.bv 8)])) "x." []) =
      .ok (.tupT (.tupS (.structT "s" [("a", Ty.bv 8)])) "x."
        [some (.plainT (.symP "x..a" (.bvS 8)) (.bvS 8))]) ∧
    sProject 1 (.tupT (.tupS (.structT "s" [("a", Ty.bv 8)])) "x."
        [some (.plainT (.symP "x..a" (.bvS 8)) (.bvS 8))]) 0 =
      .ok (.tupT (.tupS (.structT "s" [("a", Ty.bv 8)])) "x."
        [some (.plainT (.symP "x..a" (.bvS 8)) (.bvS 8))],
        some (.plainT (.symP "x..a" (.bvS 8)) (.bvS 8))) :=
  ⟨(materialization_idempotence.2.1 1 (.structT "s" [("a", Ty.bv 8)]) "x."
      [("a", Ty.bv 8)] [some (.plainT (.symP "x..a" (.bvS 8)) (.bvS 8))] rfl rfl).1,
   materialization_idempotence.2.2 1
     (.tupT (.tupS (.structT "s" [("a", Ty.bv 8)])) "x."
       [some (.plainT (.symP "x..a" (.bvS 8)) (.bvS 8))]) 0
     (.tupT (.tupS (.structT "s" [("a", Ty.bv 8)])) "x."
       [some (.plainT (.symP "x..a" (.bvS 8)) (.bvS 8))])
     (some (.plainT (.symP "x..a" (.bvS 8)) (.bvS 8))) rfl⟩

theorem sProject_populated_ne {fuel i : Nat} {ty : Ty} {n : String}
    {e : List (Option STerm)} {fields : List (String × Ty)}
    (hne : e ≠ []) (hdef : getTypeDef ty = some fields) (hi : i < fields.length)
    {x : Option STerm} (hx : e.get? i = some x) :
    sProject fuel (.tupT (.tupS ty) n e) i = .ok (.tupT (.tupS ty) n e, x) := by
  cases e with
  | nil => exact absurd rfl hne
  | cons a l => exact sProject_populated hdef hi hx

/-! ## Claim C1 -/

/-- Record type of the C1 counterexample. -/
def c1Ty : Ty := .structT "rec" [("a", .bv 8), ("b", .bv 8)]

/-- A free (never-materialized) symbol tuple of that type. -/
def c1T : STerm := .tupT (.tupS c1Ty) "main::t." []

/-- The stored value, the 8-bit constant 7. -/
def c1V : STerm := .plainT (.bvConst 8 7) (.bvS 8)

/-- What the code produces for `update(c1T, c1V, 0)`: the result tuple is
materialized under its own fresh `tuple_update::0.` prefix, so its field 1
is the fresh unconstrained symbol `tuple_update::0..b`. -/
def c1U : STerm :=
  .tupT (.tupS c1Ty) "tuple_update::0."
    [some c1V, some (.plainT (.symP "tuple_update::0..b" (.bvS 8)) (.bvS 8))]

/-- `c1T` as later materialized by its own first projection: its field 1 is
the symbol `main::t..b`. -/
def c1TM : STerm :=
  .tupT (.tupS c1Ty) "main::t."
    [some (.plainT (.symP "main::t..a" (.bvS 8)) (.bvS 8)),
     some (.plainT (.symP "main::t..b" (.bvS 8)) (.bvS 8))]

/-- A model: the two unconstrained field symbols get different values. -/
def c1Env : String → Val := fun n => if n = "main::t..b" then .nV 1 else .nV 0

/-- C1 fails on the code for a free tuple `t`: `update` does not materialize
`t` — it materializes the *result* under the result's fresh name — so for
j ≠ i the projections of the result and of `t` are distinct unconstrained
symbols, no constraint relates them (the assertion set stays empty), and a
model exists giving them different values, refuting
`project(update(t,v,i), j) == project(t, j)`. -/
theorem update_law_fails_on_free_tuple :
    sUpdate 9 ⟨0, []⟩ c1T c1V 0 none = .ok (⟨1, []⟩, c1V, c1U) ∧
    sProject 9 c1U 1 =
      .ok (c1U, some (.plainT (.symP "tuple_update::0..b" (.bvS 8)) (.bvS 8))) ∧
    sProject 9 c1T 1 =
      .ok (c1TM, some (.plainT (.symP "main::t..b" (.bvS 8)) (.bvS 8))) ∧
    (STerm.plainT (.symP "main::t..b" (.bvS 8)) (.bvS 8) ≠
      STerm.plainT (.symP "tuple_update::0..b" (.bvS 8)) (.bvS 8)) ∧
    (⟨1, []⟩ : St).assertions = [] ∧
    evalP c1Env (.symP "main::t..b" (.bvS 8)) = .nV 1 ∧
    evalP c1Env (.symP "tuple_update::0..b" (.bvS 8)) = .nV 0 ∧
    Val.nV 1 ≠ Val.nV 0 := by
  refine ⟨rfl, rfl, rfl, ?_, rfl, ?_, ?_, ?_⟩
  · intro hcontra
    injection hcontra with h1 h2
    injection h1 with h3 h4
    exact absurd h3 (by decide)
  · simp [evalP, c1Env]
  · simp [evalP, c1Env]
  · intro hcontra
    injection hcontra with h1
    exact absurd h1 (by decide)

/-- C1 (amended): for an already populated tuple `t`, `update(t, v, i)`
copies the child list into a new tuple under a fresh `tuple_update::N.`
name (materializing that copy, a no-op here), replaces child `i` with `v`,
and leaves `t` untouched; then `project(update(t,v,i), i) = v` and, for
every in-bounds j ≠ i, `project(update(t,v,i), j)` and `project(t, j)` are
the identical child term. -/
theorem tuple_update_law_populated
    (fuel pf : Nat) (s s' : St) (ty : Ty) (name : String)
    (elems : List (Option STerm)) (fields : List (String × Ty))
    (v v' u : STerm) (i : Nat)
    (hdef : getTypeDef ty = some fields)
    (hlen : elems.length = fields.length)
    (hne : elems ≠ [])
    (hi : i < elems.length)
    (h : sUpdate (fuel + 1) s (.tupT (.tupS ty) name elems) v i none = .ok (s', v', u)) :
    v' = v ∧
    s' = { s with counter := s.counter + 1 } ∧
    u = .tupT (.tupS ty) ("tuple_update::" ++ toString s.counter ++ ".")
          (elems.set i (some v)) ∧
    sProject pf u i = .ok (u, some v) ∧
    (∀ j, j < elems.length → j ≠ i → ∃ x, elems.get? j = some x ∧
      sProject pf u j = .ok (u, x) ∧
      sProject pf (.tupT (.tupS ty) name elems) j =
        .ok (.tupT (.tupS ty) name elems, x)) := by
  cases elems with
  | nil => exact absurd rfl hne
  | cons e0 rest =>
    simp only [sUpdate, mkFreshName, makeFree_populated, bind, Except.bind] at h
    rw [if_pos hi] at h
    simp only [Except.ok.injEq, Prod.mk.injEq] at h
    obtain ⟨hs, hv, hu⟩ := h
    subst hs; subst hv; subst hu
    refine ⟨rfl, rfl, rfl, ?_, ?_⟩
    · apply sProject_populated_ne
      · simp
      · exact hdef
      · omega
      · rw [List.get?_eq_getElem?, List.getElem?_set_eq_of_lt (some v) hi]
    · intro j hj hji
      obtain ⟨x, hx⟩ : ∃ x, (e0 :: rest).get? j = some x :=
        ⟨_, List.get?_eq_get hj⟩
      refine ⟨x, hx, ?_, ?_⟩
      · apply sProject_populated_ne
        · simp
        · exact hdef
        · omega
        · rw [List.get?_eq_getElem?] at hx ⊢
          rw [List.getElem?_set_ne (fun hh => hji hh.symm)]
          exact hx
      · exact sProject_populated_ne (by simp) hdef (by omega) hx

/-- Concrete instantiation of `tuple_update_law_populated`: updating field 0
of a populated 2-field tuple. -/
theorem tuple_update_law_populated_witness :
    sProject 3 (.tupT (.tupS c1Ty) "tuple_update::5."
        [some c1V, some (.plainT (.symP "p..b" (.bvS 8)) (.bvS 8))]) 0 =
      .ok (.tupT (.tupS c1Ty) "tuple_update::5."
        [some c1V, some (.plainT (.symP "p..b" (.bvS 8)) (.bvS 8))],
        some c1V) :=
  (tuple_update_law_populated 8 3 ⟨5, []⟩ ⟨6, []⟩ c1Ty "p."
    [some (.plainT (.symP "p..a" (.bvS 8)) (.bvS 8)),
     some (.plainT (.symP "p..b" (.bvS 8)) (.bvS 8))]
    [("a", Ty.bv 8), ("b", Ty.bv 8)] c1V c1V
    (.tupT (.tupS c1Ty) "tuple_update::5."
      [some c1V, some (.plainT (.symP "p..b" (.bvS 8)) (.bvS 8))]) 0
    rfl rfl (by simp) (by decide) rfl).2.2.2.1

/-! ## Claim C10 -/

/-- C10: a finite array whose declared size expression is not a constant
integer is fatal in both `tuple_array_create` and `array_create` ("Non-
constant sized array of type constant_array_of2t", `abort()`); only an array
flagged infinite is silently returned as an unconstrained fresh symbol, with
no constraint asserted. -/
theorem nonconst_array_size_fatal :
    (∀ fuel s sub args ca w,
      mkArraySmtAst fuel (convertSort (.arrayT sub .nonConst false))
        ("tuple_array_create::" ++ toString (St.counter s) ++ ".") = .ok w →
      tupleArrayCreate fuel s (.arrayT sub .nonConst false) args ca =
        .error .nonConstArraySize) ∧
    (∀ fuel s sub ms,
      arrayCreate fuel s (.constArray (.arrayT sub .nonConst false) ms) =
        .error .nonConstArraySize) ∧
    (∀ fuel s sub sz args ca w,
      mkArraySmtAst fuel (convertSort (.arrayT sub sz true))
        ("tuple_array_create::" ++ toString (St.counter s) ++ ".") = .ok w →
      tupleArrayCreate fuel s (.arrayT sub sz true) args ca =
        .ok ({ s with counter := s.counter + 1 }, w) ∧
      (St.mk (s.counter + 1) s.assertions).assertions = s.assertions) ∧
    (∀ fuel s sub sz ms, isTupleAstType sub = false →
      arrayCreate (fuel + 1) s (.constArray (.arrayT sub sz true) ms) =
        .ok ({ s with counter := s.counter + 1 },
          .plainT (.symP ("array_create::" ++ toString (St.counter s) ++ ".")
            (convertSort (.arrayT sub sz true)))
            (convertSort (.arrayT sub sz true))) ∧
      (St.mk (s.counter + 1) s.assertions).assertions = s.assertions) := by
  refine ⟨?_, ?_, ?_, ?_⟩
  · intro fuel s sub args ca w hmk
    simp only [tupleArrayCreate, mkFreshName, bind, Except.bind, hmk]
    rfl
  · intro fuel s sub ms
    rfl
  · intro fuel s sub sz args ca w hmk
    constructor
    · simp only [tupleArrayCreate, mkFreshName, bind, Except.bind, hmk]
      rfl
    · rfl
  · intro fuel s sub sz ms hsub
    constructor
    · have harr2 : isTupleArrayAstType (Ty.arrayT sub sz true) = false := by
        simp [isTupleArrayAstType, hsub]
      simp only [arrayCreate, mkFreshName, convertAst, harr2]
      rfl
    · rfl

/-- Concrete instantiation of `nonconst_array_size_fatal`. -/
theorem nonconst_array_size_fatal_witness :
    tupleArrayCreate 3 ⟨0, []⟩
      (.arrayT (.structT "s" [("a", .bv 8)]) .nonConst false) [] true =
      .error .nonConstArraySize ∧
    arrayCreate 3 ⟨0, []⟩
      (.constArray (.arrayT (.bv 8) .nonConst false) []) =
      .error .nonConstArraySize ∧
    tupleArrayCreate 3 ⟨0, []⟩
      (.arrayT (.structT "s" [("a", .bv 8)]) (.constInt 2) true) [] true =
      .ok (⟨1, []⟩,
        .tarrT (.tupS (.arrayT (.structT "s" [("a", .bv 8)]) (.constInt 2) true))
          "tuple_array_create::0."
          [some (.plainT (.symP "tuple_array_create::0..a" (.arrS 32 (.bvS 8)))
            (.arrS 32 (.bvS 8)))] true) ∧
    arrayCreate 3 ⟨0, []⟩ (.constArray (.arrayT (.bv 8) (.constInt 2) true) []) =
      .ok (⟨1, []⟩, .plainT (.symP "array_create::0." (.arrS 32 (.bvS 8)))
        (.arrS 32 (.bvS 8))) :=
  ⟨nonconst_array_size_fatal.1 3 ⟨0, []⟩ (.structT "s" [("a", .bv 8)]) [] true
      (.tarrT (.tupS (.arrayT (.structT "s" [("a", .bv 8)]) .nonConst false))
        "tuple_array_create::0."
        [some (.plainT (.symP "tuple_array_create::0..a" (.arrS 32 (.bvS 8)))
          (.arrS 32 (.bvS 8)))] true) rfl,
   nonconst_array_size_fatal.2.1 3 ⟨0, []⟩ (.bv 8) [],
   (nonconst_array_size_fatal.2.2.1 3 ⟨0, []⟩ (.structT "s" [("a", .bv 8)])
      (.constInt 2) [] true
      (.tarrT (.tupS (.arrayT (.structT "s" [("a", .bv 8)]) (.constInt 2) true))
        "tuple_array_create::0."
        [some (.plainT (.symP "tuple_array_create::0..a" (.arrS 32 (.bvS 8)))
          (.arrS 32 (.bvS 8)))] true) rfl).1,
   (nonconst_array_size_fatal.2.2.2 2 ⟨0, []⟩ (.bv 8) (.constInt 2) [] rfl).1⟩

/-! ## Claim C9 -/

/-- C9: the null-pointer symbol ("NULL" or "0") converts to the canonical
null-pointer sentinel, which encodes the 2-field (0, 0) structured value
and decodes (under every model) back to the canonical null pointer; and any
populated 2-field structured term whose descriptor matches the canonical
pointer shape decodes into a pointer value (via `pointer_expr`) rather than
a generic record. -/
theorem pointer_roundtrip :
    (∀ s ty, mkTupleSymbol s ty "NULL" = .ok (s, nullPtrAst) ∧
             mkTupleSymbol s ty "0" = .ok (s, nullPtrAst)) ∧
    (∀ fuel env, tupleGetRec (fuel + 1) env nullPtrAst = .ok nullPointerVal) ∧
    (∀ fuel env ty name pa pb sa sb,
      (ty = Ty.pointer ∨ ty = pointerStructTy) →
      tupleGetRec (fuel + 1) env
        (.tupT (.tupS ty) name [some (.plainT pa sa), some (.plainT pb sb)]) =
        .ok (pointerExpr (toNatV (evalP env pa)) (toNatV (evalP env pb)))) := by
  refine ⟨fun s ty => ⟨rfl, rfl⟩, fun fuel env => rfl, ?_⟩
  rintro fuel env ty name pa pb sa sb (rfl | rfl) <;> rfl

/-- Concrete instantiation of `pointer_roundtrip`. -/
theorem pointer_roundtrip_witness :
    tupleGetRec 2 (fun _ => Val.nV 0)
      (.tupT (.tupS pointerStructTy) "p."
        [some (.plainT (.bvConst 32 3) (.bvS 32)),
         some (.plainT (.bvConst 32 4) (.bvS 32))]) =
      .ok (pointerExpr 3 4) := by
  have h := pointer_roundtrip.2.2 1 (fun _ => Val.nV 0) pointerStructTy "p."
    (.bvConst 32 3) (.bvConst 32 4) (.bvS 32) (.bvS 32) (Or.inr rfl)
  simpa using h

/-- A fully populated child list: exactly one non-null child per field. -/
def fullP (fields : List (String × Ty)) (elems : List (Option STerm)) : Bool :=
  (elems.length == fields.length) && elems.all Option.isSome

/-- The all-empty-or-fully-populated invariant of a Tuple/TupleArray child
list against its descriptor. -/
def fullOrEmpty (fields : List (String × Ty)) (elems : List (Option STerm)) : Bool :=
  elems.isEmpty || fullP fields elems

theorem freshChildren_all_some (fuel : Nat) (pre : String) :
    ∀ (fields : List (String × Ty)) (cs : List (Option STerm)),
    freshChildren fuel pre fields = .ok cs → cs.all Option.isSome = true := by
  intro fields
  induction fields with
  | nil => intro cs h; simp only [freshChildren, Except.ok.injEq] at h; subst h; rfl
  | cons hd tl ih =>
    intro cs h
    obtain ⟨fn, fty⟩ := hd
    simp only [freshChildren] at h
    rw [exBindOk] at h
    obtain ⟨c, _, h⟩ := h
    rw [exBindOk] at h
    obtain ⟨cs', hcs, h⟩ := h
    simp only [Except.ok.injEq] at h
    subst h
    simp [List.all_cons, ih cs' hcs]

theorem convList_spec (F : St → Expr → Except Err (St × STerm)) :
    ∀ (ms : List Expr) (s s' : St) (es : List (Option STerm)),
    convList F s ms = .ok (s', es) →
    es.length = ms.length ∧ es.all Option.isSome = true := by
  intro ms
  induction ms with
  | nil =>
    intro s s' es h
    simp only [convList, Except.ok.injEq, Prod.mk.injEq] at h
    obtain ⟨_, h⟩ := h; subst h; exact ⟨rfl, rfl⟩
  | cons m tl ih =>
    intro s s' es h
    simp only [convList] at h
    rw [exBindOk] at h
    obtain ⟨⟨s1, t⟩, _, h⟩ := h
    rw [exBindOk] at h
    obtain ⟨⟨s2, ts⟩, hts, h⟩ := h
    simp only [Except.ok.injEq, Prod.mk.injEq] at h
    obtain ⟨_, h⟩ := h; subst h
    obtain ⟨hl, ha⟩ := ih s1 s2 ts hts
    exact ⟨by simp [hl], by simp [List.all_cons, ha]⟩

theorem iteLoop_spec (F : St → STerm → STerm → Except Err (St × STerm × STerm × STerm))
    (pf : Nat) :
    ∀ (n : Nat) (s : St) (a b : STerm) (i : Nat) (s' : St) (rs : List (Option STerm)),
    iteLoop F pf s a b i n = .ok (s', rs) →
    rs.length = n ∧ rs.all Option.isSome = true := by
  intro n
  induction n with
  | zero =>
    intro s a b i s' rs h
    simp only [iteLoop, Except.ok.injEq, Prod.mk.injEq] at h
    obtain ⟨_, h⟩ := h; subst h; exact ⟨rfl, rfl⟩
  | succ n ih =>
    intro s a b i s' rs h
    simp only [iteLoop] at h
    rw [exBindOk] at h
    obtain ⟨⟨a2, ca⟩, _, h⟩ := h
    rw [exBindOk] at h
    obtain ⟨⟨b2, cb⟩, _, h⟩ := h
    cases ca with
    | none => cases cb <;> exact absurd h (by simp)
    | some ca' =>
      cases cb with
      | none => exact absurd h (by simp)
      | some cb' =>
        dsimp only at h
        rw [exBindOk] at h
        obtain ⟨⟨s3, x, y, r⟩, _, h⟩ := h
        rw [exBindOk] at h
        obtain ⟨⟨s4, rs'⟩, hrs, h⟩ := h
        simp only [Except.ok.injEq, Prod.mk.injEq] at h
        obtain ⟨_, h⟩ := h; subst h
        obtain ⟨hl, ha⟩ := ih s3 a2 b2 (i + 1) s4 rs' hrs
        exact ⟨by simp [hl], by simp [List.all_cons, ha]⟩

theorem taUpdLoop_spec (Pj : STerm → Nat → Except Err (STerm × Option STerm))
    (F : St → STerm → STerm → Except Err (St × STerm)) :
    ∀ (n : Nat) (s : St) (elems : List (Option STerm)) (v : STerm) (i : Nat)
      (s' : St) (v' : STerm) (rs : List (Option STerm)),
    taUpdLoop Pj F s elems v i n = .ok (s', v', rs) →
    rs.length = n ∧ rs.all Option.isSome = true := by
  intro n
  induction n with
  | zero =>
    intro s elems v i s' v' rs h
    simp only [taUpdLoop, Except.ok.injEq, Prod.mk.injEq] at h
    obtain ⟨_, _, h⟩ := h; subst h; exact ⟨rfl, rfl⟩
  | succ n ih =>
    intro s elems v i s' v' rs h
    simp only [taUpdLoop] at h
    cases hget : elems.get? i with
    | none => rw [hget] at h; exact absurd h (by simp)
    | some fo =>
      rw [hget] at h
      cases fo with
      | none => exact absurd h (by simp)
      | some field =>
        dsimp only at h
        rw [exBindOk] at h
        obtain ⟨⟨v2, rv⟩, _, h⟩ := h
        cases rv with
        | none => exact absurd h (by simp)
        | some rv' =>
          dsimp only at h
          rw [exBindOk] at h
          obtain ⟨⟨s2, upd⟩, _, h⟩ := h
          rw [exBindOk] at h
          obtain ⟨⟨s3, v3, rs'⟩, hrs, h⟩ := h
          simp only [Except.ok.injEq, Prod.mk.injEq] at h
          obtain ⟨_, _, h⟩ := h; subst h
          obtain ⟨hl, ha⟩ := ih s2 elems v2 (i + 1) s3 v3 rs' hrs
          exact ⟨by simp [hl], by simp [List.all_cons, ha]⟩

theorem mkArrChildren_spec :
    ∀ (fuel : Nat) (sz : SizeExpr) (inf : Bool) (pre : String)
      (fields : List (String × Ty)) (cs : List (Option STerm)),
    mkArrChildren fuel sz inf pre fields = .ok cs →
    cs.length = fields.length ∧ cs.all Option.isSome = true := by
  intro fuel
  induction fuel with
  | zero =>
    intro sz inf pre fields cs h
    cases fields with
    | nil => simp only [mkArrChildren, Except.ok.injEq] at h; subst h; exact ⟨rfl, rfl⟩
    | cons hd tl => exact absurd h (by simp [mkArrChildren])
  | succ fuel ih =>
    intro sz inf pre fields cs h
    cases fields with
    | nil => simp only [mkArrChildren, Except.ok.injEq] at h; subst h; exact ⟨rfl, rfl⟩
    | cons hd tl =>
      obtain ⟨fn, fty⟩ := hd
      simp only [mkArrChildren] at h
      split at h
      · split at h
        · rw [exBindOk] at h
          obtain ⟨csIn, _, h⟩ := h
          rw [exBindOk] at h
          obtain ⟨y, _, h⟩ := h
          rw [exBindOk] at h
          obtain ⟨cs', hcs, h⟩ := h
          simp only [Except.ok.injEq] at h
          subst h
          obtain ⟨hl, ha⟩ := ih sz inf pre tl cs' hcs
          exact ⟨by simp [hl], by simp [List.all_cons, ha]⟩
        · rw [exBindOk] at h
          obtain ⟨y, hy, _⟩ := h
          exact absurd hy (by simp)
      · rw [exBindOk] at h
        obtain ⟨y, _, h⟩ := h
        rw [exBindOk] at h
        obtain ⟨cs', hcs, h⟩ := h
        simp only [Except.ok.injEq] at h
        subst h
        obtain ⟨hl, ha⟩ := ih sz inf pre tl cs' hcs
        exact ⟨by simp [hl], by simp [List.all_cons, ha]⟩

theorem all_isSome_set {l : List (Option STerm)} {i : Nat} {v : STerm}
    (h : l.all Option.isSome = true) :
    (l.set i (some v)).all Option.isSome = true := by
  rw [List.all_eq_true] at h ⊢
  intro x hx
  rcases List.mem_or_eq_of_mem_set hx with hmem | rfl
  · exact h x hmem
  · rfl

theorem makeFree_fullP {fuel : Nat} {ty : Ty} {n : String}
    {e : List (Option STerm)} {t2 : STerm} {fields : List (String × Ty)}
    (hdef : getTypeDef ty = some fields)
    (hfe : fullOrEmpty fields e = true)
    (h : makeFree fuel (.tupT (.tupS ty) n e) = .ok t2) :
    ∃ e2, t2 = .tupT (.tupS ty) n e2 ∧ fullP fields e2 = true := by
  rcases makeFree_shape h with ⟨hne, rfl⟩ | ⟨hnil, ty', fields', cs, hsrt, hdef', hcs, rfl⟩
  · refine ⟨e, rfl, ?_⟩
    cases e with
    | nil => exact absurd rfl hne
    | cons x xs => simpa [fullOrEmpty, List.isEmpty] using hfe
  · cases hsrt
    rw [hdef] at hdef'
    cases hdef'
    refine ⟨cs, rfl, ?_⟩
    obtain ⟨hlen, _⟩ := freshChildren_spec fuel n fields cs hcs
    have ha := freshChildren_all_some fuel n fields cs hcs
    simp [fullP, hlen, ha]

/-! ## Claim C8 -/

/-- Union type of the C8 counterexample. -/
def c8Ty : Ty := .unionT "u2" [("x", .bv 8)]

/-- C8 fails on `union_create`: for a union whose (scalar) member matches no
initializer type, the member loop leaves the resized child vector with its
null slot — the union symbol's tuple is neither empty nor fully populated
after the operation completes.  (When a member does match, the operation
instead faults on the null child, claim C4.) -/
theorem union_create_leaves_partial_children :
    unionCreate 9 ⟨0, []⟩ (.constUnion c8Ty (.constBool true)) =
      .ok (⟨1, []⟩, .tupT (.tupS c8Ty) "union_create::0." [],
           .tupT (.tupS c8Ty) "union_create::0." [none]) ∧
    fullOrEmpty [("x", Ty.bv 8)] [none] = false := ⟨rfl, rfl⟩

/-- C8 (amended): after `make_free`, `tuple_create` (of a full initializer),
merge (`ite`), `update`, and tuple-array construction, every produced Tuple
or TupleArray child list has exactly one populated child per descriptor
field (an untouched free term stays entirely empty); `union_create` is the
exception, leaving the union symbol's list partially populated. -/
theorem child_lists_full_or_empty :
    (∀ fuel ty n e t2 fields, getTypeDef ty = some fields →
      fullOrEmpty fields e = true →
      makeFree fuel (.tupT (.tupS ty) n e) = .ok t2 →
      ∃ e2, t2 = .tupT (.tupS ty) n e2 ∧ fullP fields e2 = true) ∧
    (∀ fuel s ty ms s' t fields, getTypeDef ty = some fields →
      ms.length = fields.length →
      tupleCreate (convertAst fuel) s ty ms = .ok (s', t) →
      ∃ nm es, t = .tupT (convertSort ty) nm es ∧ fullP fields es = true) ∧
    (∀ fuel s c ty n1 e1 targ s' t1' t2' r fields, getTypeDef ty = some fields →
      sIte fuel s c (.tupT (.tupS ty) n1 e1) targ = .ok (s', t1', t2', r) →
      ∃ rn rs, r = .tupT (.tupS ty) rn rs ∧ fullP fields rs = true) ∧
    (∀ fuel s ty n e v i s' v' u fields, getTypeDef ty = some fields →
      fullOrEmpty fields e = true →
      sUpdate fuel s (.tupT (.tupS ty) n e) v i none = .ok (s', v', u) →
      ∃ un ue, u = .tupT (.tupS ty) un ue ∧ fullP fields ue = true) ∧
    (∀ fuel sub sz inf nm t fields, getTypeDef sub = some fields →
      mkArraySmtAst fuel (.tupS (.arrayT sub sz inf)) nm = .ok t →
      ∃ cs fr, t = .tarrT (.tupS (.arrayT sub sz inf)) nm cs fr ∧
        fullP fields cs = true) ∧
    (∀ fuel s sub sz inf n e fr v i idxe s' v' u fields,
      getTypeDef sub = some fields →
      sUpdate fuel s (.tarrT (.tupS (.arrayT sub sz inf)) n e fr) v i idxe =
        .ok (s', v', u) →
      ∃ un rs, u = .tarrT (.tupS (.arrayT sub sz inf)) un rs true ∧
        fullP fields rs = true) := by
  refine ⟨fun fuel ty n e t2 fields hdef hfe h => makeFree_fullP hdef hfe h,
    ?_, ?_, ?_, ?_, ?_⟩
  · intro fuel s ty ms s' t fields hdef hlen h
    simp only [tupleCreate, mkFreshName] at h
    rw [exBindOk] at h
    obtain ⟨⟨s1, es⟩, hes, h⟩ := h
    simp only [Except.ok.injEq, Prod.mk.injEq] at h
    obtain ⟨_, h⟩ := h
    subst h
    obtain ⟨hl, ha⟩ := convList_spec (convertAst fuel) ms _ s1 es hes
    exact ⟨_, _, rfl, by simp [fullP, hl, hlen, ha]⟩
  · intro fuel s c ty n1 e1 targ s' t1' t2' r fields hdef h
    cases fuel with
    | zero => exact absurd h (by simp [sIte])
    | succ fuel =>
      cases targ with
      | plainT p srt => exact absurd h (by simp [sIte])
      | tarrT srt nb eb fb => exact absurd h (by simp [sIte])
      | tupT srtb nb eb =>
        simp only [sIte, hdef, mkFreshName] at h
        rw [exBindOk] at h
        obtain ⟨tv, _, h⟩ := h
        rw [exBindOk] at h
        obtain ⟨fv, _, h⟩ := h
        rw [exBindOk] at h
        obtain ⟨⟨s2, rs⟩, hrs, h⟩ := h
        simp only [Except.ok.injEq, Prod.mk.injEq] at h
        obtain ⟨_, _, _, h⟩ := h
        subst h
        obtain ⟨hl, ha⟩ := iteLoop_spec _ fuel fields.length _ tv fv 0 s2 rs hrs
        exact ⟨_, _, rfl, by simp [fullP, hl, ha]⟩
  · intro fuel s ty n e v i s' v' u fields hdef hfe h
    cases fuel with
    | zero => exact absurd h (by simp [sUpdate])
    | succ fuel =>
      simp only [sUpdate, mkFreshName] at h
      rw [exBindOk] at h
      obtain ⟨rfree, hfree, h⟩ := h
      obtain ⟨e2, rfl, hfull⟩ := makeFree_fullP hdef hfe hfree
      dsimp only at h
      split at h
      · simp only [Except.ok.injEq, Prod.mk.injEq] at h
        obtain ⟨_, _, h⟩ := h
        subst h
        refine ⟨_, _, rfl, ?_⟩
        simp only [fullP, Bool.and_eq_true, beq_iff_eq] at hfull ⊢
        exact ⟨by simp [hfull.1], all_isSome_set hfull.2⟩
      · exact absurd h (by simp)
  · intro fuel sub sz inf nm t fields hdef h
    simp only [mkArraySmtAst, hdef] at h
    rw [exBindOk] at h
    obtain ⟨cs, hcs, h⟩ := h
    simp only [Except.ok.injEq] at h
    subst h
    obtain ⟨hl, ha⟩ := mkArrChildren_spec fuel sz inf nm fields cs hcs
    exact ⟨_, _, rfl, by simp [fullP, hl, ha]⟩
  · intro fuel s sub sz inf n e fr v i idxe s' v' u fields hdef h
    cases fuel with
    | zero => exact absurd h (by simp [sUpdate])
    | succ fuel =>
      simp only [sUpdate, hdef, mkFreshName] at h
      rw [exBindOk] at h
      obtain ⟨⟨s2, v2, rs⟩, hrs, h⟩ := h
      simp only [Except.ok.injEq, Prod.mk.injEq] at h
      obtain ⟨_, _, h⟩ := h
      subst h
      obtain ⟨hl, ha⟩ := taUpdLoop_spec _ _ fields.length _ e v 0 s2 v2 rs hrs
      exact ⟨_, _, rfl, by simp [fullP, hl, ha]⟩

/-- Concrete instantiation of `child_lists_full_or_empty`. -/
theorem child_lists_full_or_empty_witness :
    ∃ e2, (STerm.tupT (.tupS (.structT "s" [("a", Ty.bv 8)])) "x."
        [some (.plainT (.symP "x..a" (.bvS 8)) (.bvS 8))]) =
      .tupT (.tupS (.structT "s" [("a", Ty.bv 8)])) "x." e2 ∧
      fullP [("a", Ty.bv 8)] e2 = true :=
  child_lists_full_or_empty.1 1 (.structT "s" [("a", Ty.bv 8)]) "x." []
    (.tupT (.tupS (.structT "s" [("a", Ty.bv 8)])) "x."
      [some (.plainT (.symP "x..a" (.bvS 8)) (.bvS 8))])
    [("a", Ty.bv 8)] rfl rfl rfl

theorem iteLoop_assertions
    (F : St → STerm → STerm → Except Err (St × STerm × STerm × STerm)) (pf : Nat)
    (hF : ∀ st a b r, F st a b = .ok r → r.1.assertions = st.assertions) :
    ∀ (n : Nat) (s : St) (a b : STerm) (i : Nat) (s' : St) (rs : List (Option STerm)),
    iteLoop F pf s a b i n = .ok (s', rs) → s'.assertions = s.assertions := by
  intro n
  induction n with
  | zero =>
    intro s a b i s' rs h
    simp only [iteLoop, Except.ok.injEq, Prod.mk.injEq] at h
    rw [h.1]
  | succ n ih =>
    intro s a b i s' rs h
    simp only [iteLoop] at h
    rw [exBindOk] at h
    obtain ⟨⟨a2, ca⟩, _, h⟩ := h
    rw [exBindOk] at h
    obtain ⟨⟨b2, cb⟩, _, h⟩ := h
    cases ca with
    | none => cases cb <;> exact absurd h (by simp)
    | some ca' =>
      cases cb with
      | none => exact absurd h (by simp)
      | some cb' =>
        dsimp only at h
        rw [exBindOk] at h
        obtain ⟨⟨s3, x, y, r⟩, hf1, h⟩ := h
        rw [exBindOk] at h
        obtain ⟨⟨s4, rs'⟩, hrs, h⟩ := h
        simp only [Except.ok.injEq, Prod.mk.injEq] at h
        rw [← h.1, ih s3 a2 b2 (i + 1) s4 rs' hrs, hF s ca' cb' (s3, x, y, r) hf1]

theorem tarrIteLoop_assertions
    (F : St → STerm → STerm → Except Err (St × STerm × STerm × STerm))
    (hF : ∀ st a b r, F st a b = .ok r → r.1.assertions = st.assertions) :
    ∀ (n : Nat) (s : St) (ea eb : List (Option STerm)) (i : Nat) (s' : St)
      (rs : List (Option STerm)),
    tarrIteLoop F s ea eb i n = .ok (s', rs) → s'.assertions = s.assertions := by
  intro n
  induction n with
  | zero =>
    intro s ea eb i s' rs h
    simp only [tarrIteLoop, Except.ok.injEq, Prod.mk.injEq] at h
    rw [h.1]
  | succ n ih =>
    intro s ea eb i s' rs h
    simp only [tarrIteLoop] at h
    split at h
    next ca cb _ _ =>
      rw [exBindOk] at h
      obtain ⟨⟨s3, x, y, r⟩, hf1, h⟩ := h
      rw [exBindOk] at h
      obtain ⟨⟨s4, rs'⟩, hrs, h⟩ := h
      simp only [Except.ok.injEq, Prod.mk.injEq] at h
      rw [← h.1, ih s3 ea eb (i + 1) s4 rs' hrs, hF s ca cb (s3, x, y, r) hf1]
    next => exact absurd h (by simp)
    next => exact absurd h (by simp)
    next => exact absurd h (by simp)

theorem sIte_assertions :
    ∀ (fuel : Nat) (s : St) (c : PTerm) (a b : STerm) (s' : St) (x y r : STerm),
    sIte fuel s c a b = .ok (s', x, y, r) → s'.assertions = s.assertions := by
  intro fuel
  induction fuel with
  | zero => intro s c a b s' x y r h; exact absurd h (by simp [sIte])
  | succ fuel ih =>
    intro s c a b s' x y r h
    cases a with
    | plainT pa sa =>
      cases b with
      | plainT pb sb =>
        simp only [sIte, Except.ok.injEq, Prod.mk.injEq] at h
        rw [← h.1]
      | tupT srt n e => exact absurd h (by simp [sIte])
      | tarrT srt n e f => exact absurd h (by simp [sIte])
    | tupT srt n e =>
      cases b with
      | plainT pb sb => exact absurd h (by simp [sIte])
      | tarrT srtb nb eb fb => exact absurd h (by simp [sIte])
      | tupT srtb nb eb =>
        cases srt with
        | tupS ty =>
          simp only [sIte] at h
          cases hdef : getTypeDef ty with
          | none => rw [hdef] at h; exact absurd h (by simp)
          | some fields =>
            rw [hdef] at h
            simp only [mkFreshName] at h
            rw [exBindOk] at h
            obtain ⟨tv, _, h⟩ := h
            rw [exBindOk] at h
            obtain ⟨fv, _, h⟩ := h
            rw [exBindOk] at h
            obtain ⟨⟨s2, rs⟩, hrs, h⟩ := h
            simp only [Except.ok.injEq, Prod.mk.injEq] at h
            rw [← h.1]
            exact iteLoop_assertions _ fuel
              (fun st a b r hh => ih st c a b r.1 r.2.1 r.2.2.1 r.2.2.2 hh)
              fields.length ⟨s.counter + 1, s.assertions⟩ tv fv 0 s2 rs hrs
        | boolS => exact absurd h (by simp [sIte])
        | bvS w => exact absurd h (by simp [sIte])
        | arrS d r2 => exact absurd h (by simp [sIte])
    | tarrT srt n e f =>
      cases b with
      | plainT pb sb => exact absurd h (by simp [sIte])
      | tupT srtb nb eb => exact absurd h (by simp [sIte])
      | tarrT srtb nb eb fb =>
        cases srt with
        | tupS ty =>
          cases ty with
          | arrayT sub sz inf =>
            simp only [sIte] at h
            cases hdef : getTypeDef sub with
            | none => rw [hdef] at h; exact absurd h (by simp)
            | some fields =>
              rw [hdef] at h
              simp only [mkFreshName] at h
              rw [exBindOk] at h
              obtain ⟨⟨s2, rs⟩, hrs, h⟩ := h
              simp only [Except.ok.injEq, Prod.mk.injEq] at h
              rw [← h.1]
              exact tarrIteLoop_assertions _
                (fun st a b r hh => ih st c a b r.1 r.2.1 r.2.2.1 r.2.2.2 hh)
                fields.length ⟨s.counter + 1, s.assertions⟩ e eb 0 s2 rs hrs
          | bool => exact absurd h (by simp [sIte])
          | bv w => exact absurd h (by simp [sIte])
          | structT nm fs => exact absurd h (by simp [sIte])
          | unionT nm fs => exact absurd h (by simp [sIte])
          | pointer => exact absurd h (by simp [sIte])
        | boolS => exact absurd h (by simp [sIte])
        | bvS w => exact absurd h (by simp [sIte])
        | arrS d r2 => exact absurd h (by simp [sIte])

theorem iteLoop_plain_get
    (F : St → STerm → STerm → Except Err (St × STerm × STerm × STerm)) (pf : Nat)
    (c : PTerm)
    (hF : ∀ st p sp q sq,
      (∃ r, F st (.plainT p sp) (.plainT q sq) = .ok r) →
      F st (.plainT p sp) (.plainT q sq) =
        .ok (st, .plainT p sp, .plainT q sq, .plainT (.iteP c p q) sp)) :
    ∀ (n i0 : Nat) (s s' : St) (rs : List (Option STerm)) (tya : Ty) (na : String)
      (ea : List (Option STerm)) (srtb : SSort) (nb : String)
      (eb : List (Option STerm)),
    iteLoop F pf s (.tupT (.tupS tya) na ea) (.tupT srtb nb eb) i0 n = .ok (s', rs) →
    ∀ k, k < n →
      ∀ p sp q sq, ea.get? (i0 + k) = some (some (.plainT p sp)) →
        eb.get? (i0 + k) = some (some (.plainT q sq)) →
        rs.get? k = some (some (.plainT (.iteP c p q) sp)) := by
  intro n
  induction n with
  | zero => intro i0 s s' rs tya na ea srtb nb eb h k hk; omega
  | succ n ih =>
    intro i0 s s' rs tya na ea srtb nb eb h k hk p sp q sq hea heb
    simp only [iteLoop] at h
    rw [exBindOk] at h
    obtain ⟨⟨a2, ca⟩, ha2, h⟩ := h
    rw [exBindOk] at h
    obtain ⟨⟨b2, cb⟩, hb2, h⟩ := h
    cases ca with
    | none => cases cb <;> exact absurd h (by simp)
    | some ca' =>
      cases cb with
      | none => exact absurd h (by simp)
      | some cb' =>
        dsimp only at h
        rw [exBindOk] at h
        obtain ⟨⟨s3, x3, y3, r3⟩, hf1, h⟩ := h
        rw [exBindOk] at h
        obtain ⟨⟨s4, rs'⟩, hrs, h⟩ := h
        simp only [Except.ok.injEq, Prod.mk.injEq] at h
        obtain ⟨hs4, hrseq⟩ := h
        subst hrseq
        have hneA : ea ≠ [] := by
          intro hnil; subst hnil; simp at hea
        have hneB : eb ≠ [] := by
          intro hnil; subst hnil; simp at heb
        obtain ⟨tyA, fieldsA, eA2, hsrtA, hdefA, ha2eq, hiA, hgetA, hpeA⟩ :=
          sProject_tup_ok ha2
        obtain ⟨tyB, fieldsB, eB2, hsrtB, hdefB, hb2eq, hiB, hgetB, hpeB⟩ :=
          sProject_tup_ok hb2
        have heA2 : eA2 = ea := hpeA hneA
        have heB2 : eB2 = eb := hpeB hneB
        subst heA2; subst heB2
        cases k with
        | zero =>
          have hca : ca' = STerm.plainT p sp := by
            rw [Nat.add_zero] at hea
            rw [hea] at hgetA
            injection hgetA with hh
            injection hh with hh2
            exact hh2.symm
          have hcb : cb' = STerm.plainT q sq := by
            rw [Nat.add_zero] at heb
            rw [heb] at hgetB
            injection hgetB with hh
            injection hh with hh2
            exact hh2.symm
          subst hca; subst hcb
          rw [hF s p sp q sq ⟨_, hf1⟩] at hf1
          injection hf1 with hf1
          simp only [Prod.mk.injEq] at hf1
          obtain ⟨_, _, _, hr3⟩ := hf1
          subst hr3
          rfl
        | succ k =>
          subst ha2eq; subst hb2eq
          have := ih (i0 + 1) s3 s4 rs' tya na eA2 srtb nb eB2 hrs k (by omega)
            p sp q sq (by rw [show i0 + 1 + k = i0 + (k + 1) by omega]; exact hea)
            (by rw [show i0 + 1 + k = i0 + (k + 1) by omega]; exact heb)
          simpa using this

/-! ## Claim C2 -/

/-- C2: the merge of two tuples `t1`, `t2` of the same structured sort under
condition `c` emits no top-level constraint, builds a fresh
`tuple_ite::N.` result tuple whose field `i` is the field-wise merge
`ite(c, project(t1,i), project(t2,i))`, and under every model the projected
field evaluates to `if c then project(t1,i) else project(t2,i)` (stated for
scalar fields, whose merge is one native if-then-else). -/
theorem tuple_merge_law
    (fuel pf : Nat) (s s' : St) (c : PTerm) (ty : Ty) (n1 n2 : String)
    (e1 e2 : List (Option STerm)) (srtb : SSort) (t1' t2' r : STerm)
    (i : Nat) (p1 p2 : PTerm) (sp1 sp2 : SSort)
    (h : sIte fuel s c (.tupT (.tupS ty) n1 e1) (.tupT srtb n2 e2) =
      .ok (s', t1', t2', r))
    (hp1 : sProject pf t1' i = .ok (t1', some (.plainT p1 sp1)))
    (hp2 : sProject pf t2' i = .ok (t2', some (.plainT p2 sp2))) :
    s'.assertions = s.assertions ∧
    (∃ rs, r = .tupT (.tupS ty) ("tuple_ite::" ++ toString s.counter ++ ".") rs ∧
      sProject pf r i = .ok (r, some (.plainT (.iteP c p1 p2) sp1))) ∧
    (∀ env, evalP env (.iteP c p1 p2) =
      if isTrueV (evalP env c) then evalP env p1 else evalP env p2) := by
  refine ⟨sIte_assertions fuel s c _ _ s' t1' t2' r h, ?_, fun env => rfl⟩
  cases fuel with
  | zero => exact absurd h (by simp [sIte])
  | succ fuel =>
    simp only [sIte] at h
    cases hdef : getTypeDef ty with
    | none => rw [hdef] at h; exact absurd h (by simp)
    | some fields =>
      rw [hdef] at h
      simp only [mkFreshName] at h
      rw [exBindOk] at h
      obtain ⟨tv, htv, h⟩ := h
      rw [exBindOk] at h
      obtain ⟨fv, hfv, h⟩ := h
      rw [exBindOk] at h
      obtain ⟨⟨s2, rs⟩, hrs, h⟩ := h
      simp only [Except.ok.injEq, Prod.mk.injEq] at h
      obtain ⟨hs2, htv', hfv', hr⟩ := h
      subst htv'; subst hfv'
      -- the merged sides are tuples with the original sorts and names
      have htvShape : ∃ etv, tv = .tupT (.tupS ty) n1 etv := by
        rcases makeFree_shape htv with ⟨_, rfl⟩ | ⟨_, _, _, cs, _, _, _, rfl⟩
        · exact ⟨e1, rfl⟩
        · exact ⟨cs, rfl⟩
      have hfvShape : ∃ efv, fv = .tupT srtb n2 efv := by
        rcases makeFree_shape hfv with ⟨_, rfl⟩ | ⟨_, _, _, cs, _, _, _, rfl⟩
        · exact ⟨e2, rfl⟩
        · exact ⟨cs, rfl⟩
      obtain ⟨etv, rfl⟩ := htvShape
      obtain ⟨efv, rfl⟩ := hfvShape
      -- project the merged sides: identical children as used by the loop
      obtain ⟨tyA, fieldsA, eA2, hsrtA, hdefA, ha2eq, hiA, hgetA, _⟩ :=
        sProject_tup_ok hp1
      obtain ⟨tyB, fieldsB, eB2, hsrtB, hdefB, hb2eq, hiB, hgetB, _⟩ :=
        sProject_tup_ok hp2
      cases hsrtA
      injection ha2eq with _ _ ha2e
      subst ha2e
      injection hb2eq with _ _ hb2e
      subst hb2e
      rw [hdef] at hdefA
      cases hdefA
      -- field i of the loop result
      have hloop := iteLoop_plain_get (fun st a b => sIte fuel st c a b) fuel c
        (fun st p sp q sq hex => by
          cases fuel with
          | zero => obtain ⟨r0, hr0⟩ := hex; exact absurd hr0 (by simp [sIte])
          | succ fuel => rfl)
        fields.length 0 ⟨s.counter + 1, s.assertions⟩ s2 rs ty n1 etv srtb n2 efv
        hrs i hiA p1 sp1 p2 sp2 (by simpa using hgetA) (by simpa using hgetB)
      have hrsne : rs ≠ [] := by
        intro hnil; subst hnil; simp at hloop
      subst hr
      refine ⟨rs, rfl, ?_⟩
      exact sProject_populated_ne hrsne hdef hiA hloop

/-- Concrete instantiation of `tuple_merge_law`: merging two populated
1-field tuples and projecting field 0 of the result. -/
theorem tuple_merge_law_witness :
    sProject 2 (.tupT (.tupS (.structT "r" [("x", Ty.bv 8)])) "tuple_ite::0."
        [some (.plainT (.iteP (.symP "cond" .boolS) (.symP "a..x" (.bvS 8))
          (.symP "b..x" (.bvS 8))) (.bvS 8))]) 0 =
      .ok (.tupT (.tupS (.structT "r" [("x", Ty.bv 8)])) "tuple_ite::0."
        [some (.plainT (.iteP (.symP "cond" .boolS) (.symP "a..x" (.bvS 8))
          (.symP "b..x" (.bvS 8))) (.bvS 8))],
        some (.plainT (.iteP (.symP "cond" .boolS) (.symP "a..x" (.bvS 8))
          (.symP "b..x" (.bvS 8))) (.bvS 8))) := by
  obtain ⟨_, ⟨rs, hr, hp⟩, _⟩ := tuple_merge_law 3 2 ⟨0, []⟩ ⟨1, []⟩
    (.symP "cond" .boolS) (.structT "r" [("x", Ty.bv 8)]) "a." "b."
    [some (.plainT (.symP "a..x" (.bvS 8)) (.bvS 8))]
    [some (.plainT (.symP "b..x" (.bvS 8)) (.bvS 8))]
    (.tupS (.structT "r" [("x", Ty.bv 8)]))
    (.tupT (.tupS (.structT "r" [("x", Ty.bv 8)])) "a."
      [some (.plainT (.symP "a..x" (.bvS 8)) (.bvS 8))])
    (.tupT (.tupS (.structT "r" [("x", Ty.bv 8)])) "b."
      [some (.plainT (.symP "b..x" (.bvS 8)) (.bvS 8))])
    (.tupT (.tupS (.structT "r" [("x", Ty.bv 8)])) "tuple_ite::0."
      [some (.plainT (.iteP (.symP "cond" .boolS) (.symP "a..x" (.bvS 8))
        (.symP "b..x" (.bvS 8))) (.bvS 8))])
    0 (.symP "a..x" (.bvS 8)) (.symP "b..x" (.bvS 8)) (.bvS 8) (.bvS 8)
    rfl rfl rfl
  exact hp

mutual

/-- The canonical correspondence between a concrete structured literal and
the aggregate value `tuple_get_rec` reconstructs: bit-vector constants map
to integer values, booleans to boolean values, and struct literals map
field-wise (every member present). -/
inductive LitDec : Expr → DecodedVal → Prop where
  | int : ∀ w v, LitDec (.constInt (.bv w) v) (.intV (.bv w) v)
  | bool : ∀ b, LitDec (.constBool b) (.boolV b)
  | struct : ∀ ty ms ds, LitDecL ms ds → LitDec (.constStruct ty ms) (.structV ty ds)

/-- Field-wise version of `LitDec`. -/
inductive LitDecL : List Expr → List (Option DecodedVal) → Prop where
  | nil : LitDecL [] []
  | cons : ∀ m d ms ds, LitDec m d → LitDecL ms ds →
      LitDecL (m :: ms) (some d :: ds)

end

mutual

/-- Well-formed concrete structured literals: in-range bit-vector constants,
booleans, and struct literals whose members match the descriptor field
types; a struct type matching the canonical pointer shape is excluded
(such a value decodes as a pointer, claim C9 / the C3 counterexample). -/
inductive WfLit : Expr → Prop where
  | int : ∀ w v, v < 2 ^ w → WfLit (.constInt (.bv w) v)
  | bool : ∀ b, WfLit (.constBool b)
  | struct : ∀ nm fs ms, isPointerShape (.structT nm fs) = false →
      WfML ms fs → WfLit (.constStruct (.structT nm fs) ms)

/-- Member lists well-formed against a field descriptor list. -/
inductive WfML : List Expr → List (String × Ty) → Prop where
  | nil : WfML [] []
  | cons : ∀ m fn fty ms fs, WfLit m → exprType m = fty → WfML ms fs →
      WfML (m :: ms) ((fn, fty) :: fs)

end

/-- The element-wise content of a successful `convList` run: each slot holds
the conversion of the corresponding member (under some state). -/
inductive ConvSeq (fuel : Nat) : List Expr → List (Option STerm) → Prop where
  | nil : ConvSeq fuel [] []
  | cons : ∀ m t ms ts s s', convertAst fuel s m = .ok (s', t) →
      ConvSeq fuel ms ts → ConvSeq fuel (m :: ms) (some t :: ts)

theorem convList_seq {fuel : Nat} :
    ∀ (ms : List Expr) (s s' : St) (es : List (Option STerm)),
    convList (convertAst fuel) s ms = .ok (s', es) → ConvSeq fuel ms es := by
  intro ms
  induction ms with
  | nil =>
    intro s s' es h
    simp only [convList, Except.ok.injEq, Prod.mk.injEq] at h
    rw [← h.2]
    exact ConvSeq.nil
  | cons m tl ih =>
    intro s s' es h
    simp only [convList] at h
    rw [exBindOk] at h
    obtain ⟨⟨s1, t⟩, ht, h⟩ := h
    rw [exBindOk] at h
    obtain ⟨⟨s2, ts⟩, hts, h⟩ := h
    simp only [Except.ok.injEq, Prod.mk.injEq] at h
    rw [← h.2]
    exact ConvSeq.cons m t tl ts s s1 ht (ih s1 s2 ts hts)

theorem convertAst_int_ok {fuel : Nat} {s s' : St} {w v : Nat} {t : STerm}
    (h : convertAst fuel s (.constInt (.bv w) v) = .ok (s', t)) :
    s' = s ∧ t = .plainT (.bvConst w v) (.bvS w) := by
  cases fuel with
  | zero => exact absurd h (by simp [convertAst])
  | succ fuel =>
    simp only [convertAst, Except.ok.injEq, Prod.mk.injEq] at h
    exact ⟨h.1.symm, h.2.symm⟩

theorem convertAst_bool_ok {fuel : Nat} {s s' : St} {b : Bool} {t : STerm}
    (h : convertAst fuel s (.constBool b) = .ok (s', t)) :
    s' = s ∧ t = .plainT (.boolConst b) .boolS := by
  cases fuel with
  | zero => exact absurd h (by simp [convertAst])
  | succ fuel =>
    simp only [convertAst, Except.ok.injEq, Prod.mk.injEq] at h
    exact ⟨h.1.symm, h.2.symm⟩

theorem getRecLoopConv (fuel : Nat) (env : String → Val)
    (IH : ∀ ty ms s s' t, WfLit (.constStruct ty ms) →
      convertAst fuel s (.constStruct ty ms) = .ok (s', t) →
      ∃ d, tupleGetRec fuel env t = .ok d ∧ LitDec (.constStruct ty ms) d) :
    ∀ (ms' : List Expr) (fs' : List (String × Ty)) (es' : List (Option STerm))
      (i0 : Nat) (es0 : List (Option STerm)),
    WfML ms' fs' → ConvSeq fuel ms' es' →
    (∀ k, es0.get? (i0 + k) = es'.get? k) →
    ∃ ds, getRecLoop (tupleGetRec fuel env) env es0 i0 fs' = .ok ds ∧
      LitDecL ms' ds := by
  intro ms'
  induction ms' with
  | nil =>
    intro fs' es' i0 es0 hwf hcs halign
    cases hwf
    exact ⟨[], rfl, LitDecL.nil⟩
  | cons m tl ih =>
    intro fs' es' i0 es0 hwf hcs halign
    cases hwf with
    | cons _ fn fty _ fs hm hty hwtl =>
      cases hcs with
      | cons _ t _ ts sx sx' hconv hctl =>
        have hget : es0.get? i0 = some (some t) := by
          have h0 := halign 0
          simpa using h0
        have haligntl : ∀ k, es0.get? (i0 + 1 + k) = ts.get? k := by
          intro k
          have hk := halign (k + 1)
          rw [show i0 + (k + 1) = i0 + 1 + k by omega] at hk
          simpa using hk
        obtain ⟨ds, hds, hdsl⟩ := ih fs ts (i0 + 1) es0 hwtl hctl haligntl
        cases hm with
        | int w v hv =>
          simp only [exprType] at hty
          subst hty
          obtain ⟨rfl, rfl⟩ := convertAst_int_ok hconv
          refine ⟨some (.intV (.bv w) v) :: ds, ?_, LitDecL.cons _ _ _ _
            (LitDec.int w v) hdsl⟩
          simp only [getRecLoop, isTupleAstType, isTupleArrayAstType,
            isNumberType, isBoolType, hget, bind, Except.bind, pure,
            Except.pure, evalP, toNatV, Nat.mod_eq_of_lt hv, hds]
          simp
        | bool b =>
          simp only [exprType] at hty
          subst hty
          obtain ⟨rfl, rfl⟩ := convertAst_bool_ok hconv
          refine ⟨some (.boolV b) :: ds, ?_, LitDecL.cons _ _ _ _
            (LitDec.bool b) hdsl⟩
          simp only [getRecLoop, isTupleAstType, isTupleArrayAstType,
            isNumberType, isBoolType, hget, bind, Except.bind, pure,
            Except.pure, evalP, isTrueV, hds]
          simp
        | struct nm2 fs2 ms2 hps2 hwfml2 =>
          simp only [exprType] at hty
          subst hty
          obtain ⟨d, hd, hld⟩ := IH (.structT nm2 fs2) ms2 sx sx' t
            (WfLit.struct nm2 fs2 ms2 hps2 hwfml2) hconv
          refine ⟨some d :: ds, ?_, LitDecL.cons _ _ _ _ hld hdsl⟩
          simp only [getRecLoop, isTupleAstType, hget, bind, Except.bind,
            pure, Except.pure, hd, hds]
          simp

theorem convRoundtripStruct :
    ∀ (fuel : Nat) (ty : Ty) (ms : List Expr) (s s' : St) (t : STerm)
      (env : String → Val),
    WfLit (.constStruct ty ms) →
    convertAst fuel s (.constStruct ty ms) = .ok (s', t) →
    ∃ d, tupleGetRec fuel env t = .ok d ∧ LitDec (.constStruct ty ms) d := by
  intro fuel
  induction fuel with
  | zero => intro ty ms s s' t env hwf h; exact absurd h (by simp [convertAst])
  | succ fuel ihf =>
    intro ty ms s s' t env hwf h
    cases hwf with
    | struct nm fs _ hps hwfml =>
      simp only [convertAst, tupleCreate, mkFreshName, convertSort] at h
      rw [exBindOk] at h
      obtain ⟨⟨s1, es⟩, hes, h⟩ := h
      simp only [Except.ok.injEq, Prod.mk.injEq] at h
      obtain ⟨hs', ht⟩ := h
      subst ht
      have hseq := convList_seq ms _ s1 es hes
      cases ms with
      | nil =>
        cases hseq
        cases hwfml
        exact ⟨.structV (.structT nm []) [], rfl,
          LitDec.struct _ _ _ LitDecL.nil⟩
      | cons m0 mtl =>
        have hne : es ≠ [] := by cases hseq; simp
        obtain ⟨ds, hds, hdsl⟩ := getRecLoopConv fuel env
          (fun ty2 ms2 s2 s2' t2 hwf2 hcv2 => ihf ty2 ms2 s2 s2' t2 env hwf2 hcv2)
          (m0 :: mtl) fs es 0 es hwfml hseq (fun k => by simp)
        refine ⟨.structV (.structT nm fs) ds, ?_, LitDec.struct _ _ _ hdsl⟩
        simp only [tupleGetRec, getTypeDef]
        rw [if_neg (by simp [hne])]
        simp only [bind, Except.bind, hds, hps]
        simp

/-! ## Claim C3 -/

/-- The pointer-shaped literal of the C3 counterexample. -/
def c3L : Expr := .constStruct pointerStructTy
  [.constInt (.bv 32) 5, .constInt (.bv 32) 9]

/-- Its conversion: a fully materialized `tuple_create::0.` tuple. -/
def c3T : STerm :=
  .tupT (.tupS pointerStructTy) "tuple_create::0."
    [some (.plainT (.bvConst 32 5) (.bvS 32)),
     some (.plainT (.bvConst 32 9) (.bvS 32))]

/-- C3 fails on the code for a literal whose struct type is the canonical
pointer-shape descriptor: `tuple_get_rec` rewrites any such 2-field value
into a pointer value (`pointer_expr`), so decoding `tuple_create(L)` yields
a pointer, not the struct literal L again. -/
theorem roundtrip_fails_on_pointer_shaped_literal :
    convertAst 3 ⟨0, []⟩ c3L = .ok (⟨1, []⟩, c3T) ∧
    tupleGetRec 3 (fun _ => Val.nV 0) c3T = .ok (.pointerV 5 9) ∧
    ¬ LitDec c3L (.pointerV 5 9) := by
  refine ⟨rfl, rfl, ?_⟩
  intro hcontra
  cases hcontra

/-- C3 (amended): for every well-formed concrete structured literal L (field
types bit-vector, boolean, or nested structured, none matching the
canonical pointer shape), `tuple_create(L)` builds a fully materialized
tuple under a fresh `tuple_create::N.` name with one converted child per
member, and decoding it against any solved model reproduces L. -/
theorem tuple_create_roundtrip
    (fuel : Nat) (ty : Ty) (ms : List Expr) (s s' : St) (t : STerm)
    (env : String → Val)
    (hwf : WfLit (.constStruct ty ms))
    (h : convertAst fuel s (.constStruct ty ms) = .ok (s', t)) :
    (∃ es, t = .tupT (convertSort ty)
        ("tuple_create::" ++ toString s.counter ++ ".") es ∧
      es.length = ms.length ∧ es.all Option.isSome = true) ∧
    ∃ d, tupleGetRec fuel env t = .ok d ∧ LitDec (.constStruct ty ms) d := by
  constructor
  · cases fuel with
    | zero => exact absurd h (by simp [convertAst])
    | succ fuel =>
      simp only [convertAst, tupleCreate, mkFreshName] at h
      rw [exBindOk] at h
      obtain ⟨⟨s1, es⟩, hes, h⟩ := h
      simp only [Except.ok.injEq, Prod.mk.injEq] at h
      obtain ⟨_, ht⟩ := h
      subst ht
      obtain ⟨hl, ha⟩ := convList_spec (convertAst fuel) ms _ s1 es hes
      exact ⟨es, rfl, hl, ha⟩
  · exact convRoundtripStruct fuel ty ms s s' t env hwf h

/-- Concrete instantiation of `tuple_create_roundtrip`: the 2-field literal
{x = 7, y = true} converts and decodes back to itself. -/
theorem tuple_create_roundtrip_witness :
    tupleGetRec 3 (fun _ => Val.nV 0)
      (.tupT (.tupS (.structT "point" [("x", .bv 8), ("y", .bool)]))
        "tuple_create::0."
        [some (.plainT (.bvConst 8 7) (.bvS 8)),
         some (.plainT (.boolConst true) .boolS)]) =
      .ok (.structV (.structT "point" [("x", .bv 8), ("y", .bool)])
        [some (.intV (.bv 8) 7), some (.boolV true)]) ∧
    LitDec (.constStruct (.structT "point" [("x", .bv 8), ("y", .bool)])
        [.constInt (.bv 8) 7, .constBool true])
      (.structV (.structT "point" [("x", .bv 8), ("y", .bool)])
        [some (.intV (.bv 8) 7), some (.boolV true)]) := by
  have hwf : WfLit (.constStruct (.structT "point" [("x", .bv 8), ("y", .bool)])
      [.constInt (.bv 8) 7, .constBool true]) := by
    refine WfLit.struct _ _ _ rfl ?_
    refine WfML.cons _ _ _ _ _ (WfLit.int 8 7 (by decide)) rfl ?_
    exact WfML.cons _ _ _ _ _ (WfLit.bool true) rfl WfML.nil
  obtain ⟨_, d, hd, hld⟩ := tuple_create_roundtrip 3
    (.structT "point" [("x", .bv 8), ("y", .bool)])
    [.constInt (.bv 8) 7, .constBool true] ⟨0, []⟩ ⟨1, []⟩
    (.tupT (.tupS (.structT "point" [("x", .bv 8), ("y", .bool)]))
      "tuple_create::0."
      [some (.plainT (.bvConst 8 7) (.bvS 8)),
       some (.plainT (.boolConst true) .boolS)])
    (fun _ => Val.nV 0) hwf rfl
  have hcomp : tupleGetRec 3 (fun _ => Val.nV 0)
      (.tupT (.tupS (.structT "point" [("x", .bv 8), ("y", .bool)]))
        "tuple_create::0."
        [some (.plainT (.bvConst 8 7) (.bvS 8)),
         some (.plainT (.boolConst true) .boolS)]) =
      .ok (.structV (.structT "point" [("x", .bv 8), ("y", .bool)])
        [some (.intV (.bv 8) 7), some (.boolV true)]) := rfl
  refine ⟨hcomp, ?_⟩
  rw [hcomp] at hd
  injection hd with hd2
  rw [hd2]
  exact hld

/-! ## Claim C5 -/

/-- The 2-field record type of the C5 scenario. -/
def c5Rec : Ty := .structT "rec" [("a", .bv 8), ("b", .bv 8)]

/-- The repeated initializer {a = 3, b = 5}. -/
def c5Init : Expr := .constStruct c5Rec [.constInt (.bv 8) 3, .constInt (.bv 8) 5]

/-- The 4-element array-of-records type. -/
def c5ArrTy : Ty := .arrayT c5Rec (.constInt 4) false

/-- The converted initializer (a materialized `tuple_create::0.` tuple). -/
def c5InitAst : STerm :=
  .tupT (.tupS c5Rec) "tuple_create::0."
    [some (.plainT (.bvConst 8 3) (.bvS 8)),
     some (.plainT (.bvConst 8 5) (.bvS 8))]

/-- The per-field store chain built by the four repeated updates, over the
fresh base array symbol of field `fn` with stored value `v`. -/
def c5Chain (fn : String) (v : Nat) : PTerm :=
  .storeP (.storeP (.storeP (.storeP
    (.symP ("tuple_array_create::1.." ++ fn) (.arrS 32 (.bvS 8)))
    (.bvConst 32 0) (.bvConst 8 v))
    (.bvConst 32 1) (.bvConst 8 v))
    (.bvConst 32 2) (.bvConst 8 v))
    (.bvConst 32 3) (.bvConst 8 v)

/-- The tuple-array the scenario builds: one 4-store array per field. -/
def c5Arr : STerm :=
  .tarrT (.tupS c5ArrTy) "tuple_array_update::5."
    [some (.plainT (c5Chain "a" 3) (.arrS 32 (.bvS 8))),
     some (.plainT (c5Chain "b" 5) (.arrS 32 (.bvS 8)))] true

/-- C5 fails on the code as stated: the element-by-element decoder for
arrays of structures, `tuple_array_get`, is unimplemented ("Tuple array get
currently unimplemented") and returns the empty no-value expression for
every input — in particular for the 4-element scenario array — so decoding
produces no records at all. -/
theorem tuple_array_get_returns_no_value :
    tupleArrayCreate 9 ⟨1, []⟩ c5ArrTy [c5InitAst] true = .ok (⟨6, []⟩, c5Arr) ∧
    tupleArrayGet (.constArrayOf c5ArrTy c5Init) = none ∧
    (tupleArrayGet (.constArrayOf c5ArrTy c5Init)).isSome = false :=
  ⟨rfl, rfl, rfl⟩

/-- C5 (amended): the scenario array is built by four repeated updates of a
fresh tuple-array symbol, storing the initializer's fields index-wise into
the per-field arrays; under any model (one assigning the base array symbols
array values), selecting any of the four indices and decoding the selected
record yields the initializer's values {a = 3, b = 5}; but `tuple_array_get`
itself is unimplemented and yields the no-value placeholder. -/
theorem tuple_array_scenario
    (i : Nat) (hi : i < 4) (env : String → Val) (fa fb : Nat → Val)
    (hfa : env "tuple_array_create::1..a" = .arrV fa)
    (hfb : env "tuple_array_create::1..b" = .arrV fb) :
    convertAst 9 ⟨0, []⟩ c5Init = .ok (⟨1, []⟩, c5InitAst) ∧
    tupleArrayCreate 9 ⟨1, []⟩ c5ArrTy [c5InitAst] true = .ok (⟨6, []⟩, c5Arr) ∧
    tupleArrayGet (.constArrayOf c5ArrTy c5Init) = none ∧
    ∃ sel, sSelect 9 ⟨6, []⟩ c5Arr (.bvConst 32 i) = .ok (⟨7, []⟩, sel) ∧
      tupleGetRec 9 env sel =
        .ok (.structV c5Rec [some (.intV (.bv 8) 3), some (.intV (.bv 8) 5)]) := by
  refine ⟨rfl, rfl, rfl, ?_⟩
  have hps : isPointerShape c5Rec = false := rfl
  interval_cases i <;>
    exact ⟨_, rfl, by
      simp [tupleGetRec, getRecLoop, getTypeDef, c5Rec, c5Chain, isTupleAstType,
        isTupleArrayAstType, isNumberType, isBoolType, isArrayType, evalP,
        toNatV, hfa, hfb, hps, isPointerShape, bind, Except.bind, pure, Except.pure]⟩

/-- Concrete instantiation of `tuple_array_scenario` at index 2 with the
all-zero-arrays model. -/
theorem tuple_array_scenario_witness :
    tupleArrayCreate 9 ⟨1, []⟩ c5ArrTy [c5InitAst] true = .ok (⟨6, []⟩, c5Arr) ∧
    tupleArrayGet (.constArrayOf c5ArrTy c5Init) = none := by
  obtain ⟨_, h2, h3, _⟩ := tuple_array_scenario 2 (by decide)
    (fun _ => Val.arrV fun _ => Val.nV 0) (fun _ => Val.nV 0) (fun _ => Val.nV 0)
    rfl rfl
  exact ⟨h2, h3⟩
